import Mathlib

/-!
Verification of the rush monorepo build orchestrator core against its
natural-language specification.  The definitions below are shallow embeddings
of the TypeScript sources (TaskRunner, ProjectBuildTask, VersionPolicy,
InstallManager, ShrinkwrapFile); theorems settle the frozen claims C1..C10.
-/

set_option autoImplicit false

/- ===================================================================
   C1: TaskRunner._calculateCriticalPaths
   Source: apps/rush-lib cli taskRunner (TaskRunner.ts section of the
   combined RushConfigurationProject.ts file, lines 883-899).

   JavaScript numbers as used there: `Math.max()` applied to an empty
   argument list yields -Infinity, and `-Infinity + 1 = -Infinity`.
   We embed the fragment of JS numbers reachable here: integers and
   negative infinity.
   =================================================================== -/

/-- A JavaScript number as produced by the critical-path computation:
either an ordinary integer or negative infinity. -/
inductive JSNum where
  | negInf : JSNum
  | int : Int → JSNum
deriving DecidableEq, Repr

/-- JS `x + 1` on this fragment: `-Infinity + 1 = -Infinity`. -/
def JSNum.addOne : JSNum → JSNum
  | .negInf => .negInf
  | .int n => .int (n + 1)

/-- Binary JS `Math.max`. -/
def JSNum.jsMax : JSNum → JSNum → JSNum
  | .negInf, b => b
  | a, .negInf => a
  | .int a, .int b => .int (max a b)

/-- JS `Math.max(...xs)`: the fold of binary max starting from the value
`Math.max()` returns for an empty argument list, namely -Infinity. -/
def jsMathMax (xs : List JSNum) : JSNum :=
  xs.foldl JSNum.jsMax JSNum.negInf

/-- Embeds `TaskRunner._calculateCriticalPaths(task)`.  The memo table maps a
task to its cached `criticalPathLength` (`undefined` = `none`).  The source
declares `const depsLengths: number[] = []`, then runs
`task.dependents.forEach(dep => this._calculateCriticalPaths(dep))` --- the
recursive calls only populate the memo table, their results are never pushed
into `depsLengths` --- and finally returns
`task.criticalPathLength = Math.max(...depsLengths) + 1`.
The fuel argument bounds the recursion depth; the source recursion terminates
because the memo table fills up, and any fuel exceeding the task count gives
the source behaviour. -/
def calcCriticalPathsAux {n : Nat} (dependents : Fin n → List (Fin n)) :
    Nat → (Fin n → Option JSNum) → Fin n → ((Fin n → Option JSNum) × JSNum)
  | 0, memo, _ => (memo, JSNum.negInf)
  | fuel+1, memo, t =>
    match memo t with
    | some v => (memo, v)
    | none =>
      if dependents t = [] then
        (fun u => if u = t then some (JSNum.int 0) else memo u, JSNum.int 0)
      else
        let depsLengths : List JSNum := []
        let memo2 := (dependents t).foldl
          (fun m d => (calcCriticalPathsAux dependents fuel m d).1) memo
        let result := (jsMathMax depsLengths).addOne
        (fun u => if u = t then some result else memo2 u, result)

/-- Embeds the precondition pass of `TaskRunner.execute()`:
`this._tasks.forEach(task => this._calculateCriticalPaths(task))`, threading
the memo table (the mutable `criticalPathLength` fields) through the calls. -/
def executeCriticalPathPass {n : Nat} (dependents : Fin n → List (Fin n))
    (tasks : List (Fin n)) : Fin n → Option JSNum :=
  tasks.foldl (fun m t => (calcCriticalPathsAux dependents (n + 1) m t).1)
    (fun _ => none)

/-- The dependent graph of the spec scenario: T1 and T2 have dependent T3,
T3 and T4 have dependent T5, T5 has no dependents.  Tasks T1..T5 are indices
0..4. -/
def exampleDependents : Fin 5 → List (Fin 5)
  | 0 => [2]
  | 1 => [2]
  | 2 => [4]
  | 3 => [4]
  | 4 => []

/-- C1: the claim says that after the precondition pass of execute() the
critical-path lengths for the graph T1→T3, T2→T3, T3→T5, T4→T5 are
T5=0, T3=1, T4=1, T1=2, T2=2.  The code instead leaves `depsLengths` empty
(the recursive calls' results are never collected), so every task that has a
dependent receives `Math.max() + 1 = -Infinity`; only the leaf T5 gets 0.
This theorem evaluates the embedded code on the claim's own example. -/
theorem criticalPath_negInf_on_example :
    executeCriticalPathPass exampleDependents [0, 1, 2, 3, 4] 4
        = some (JSNum.int 0)
      ∧ executeCriticalPathPass exampleDependents [0, 1, 2, 3, 4] 2
        = some JSNum.negInf
      ∧ executeCriticalPathPass exampleDependents [0, 1, 2, 3, 4] 3
        = some JSNum.negInf
      ∧ executeCriticalPathPass exampleDependents [0, 1, 2, 3, 4] 0
        = some JSNum.negInf
      ∧ executeCriticalPathPass exampleDependents [0, 1, 2, 3, 4] 1
        = some JSNum.negInf := by
  refine ⟨rfl, rfl, rfl, rfl, rfl⟩

/- ===================================================================
   C2: VersionPolicy.ensure / VersionPolicy.validate
   Source: apps/rush-lib/src/data/VersionPolicy.ts.

   Versions are stored parsed, exactly as the semver library keeps them:
   numeric major/minor/patch plus a prerelease array whose entries are
   either numbers or strings.
   =================================================================== -/

/-- Three-way comparison on Nat written with the usual if-chain. -/
def natCmp (a b : Nat) : Ordering :=
  if a < b then .lt else if a = b then .eq else .gt

/-- Three-way comparison on String (lexicographic, as the semver library
compares alphanumeric prerelease identifiers). -/
def strCmp (a b : String) : Ordering :=
  if a < b then .lt else if a = b then .eq else .gt

/-- A parsed prerelease identifier: the semver library converts purely
numeric identifiers to numbers and keeps the rest as strings. -/
inductive PreId where
  | num : Nat → PreId
  | alpha : String → PreId
deriving DecidableEq, Repr

/-- semver compareIdentifiers: numeric identifiers sort below alphanumeric
ones; numbers compare numerically, strings lexicographically. -/
def PreId.cmp : PreId → PreId → Ordering
  | .num a, .num b => natCmp a b
  | .num _, .alpha _ => .lt
  | .alpha _, .num _ => .gt
  | .alpha a, .alpha b => strCmp a b

/-- Element-wise comparison of two nonempty prerelease identifier lists,
with the shorter list sorting first when one is a prefix of the other. -/
def cmpPreList : List PreId → List PreId → Ordering
  | [], [] => .eq
  | [], _ :: _ => .lt
  | _ :: _, [] => .gt
  | a :: as, b :: bs => (PreId.cmp a b).then (cmpPreList as bs)

/-- semver comparePre: a version with a prerelease sorts below the same
version without one; otherwise identifiers are compared element-wise. -/
def cmpPrerelease : List PreId → List PreId → Ordering
  | [], [] => .eq
  | [], _ :: _ => .gt
  | _ :: _, [] => .lt
  | a :: as, b :: bs => cmpPreList (a :: as) (b :: bs)

/-- A parsed semver version (build metadata is ignored by compare and by
format, so it is not modelled). -/
structure SemVer where
  major : Nat
  minor : Nat
  patch : Nat
  prerelease : List PreId
deriving DecidableEq, Repr

/-- semver SemVer.compare: major, minor, patch, then prerelease. -/
def SemVer.cmp (a b : SemVer) : Ordering :=
  (natCmp a.major b.major).then ((natCmp a.minor b.minor).then
    ((natCmp a.patch b.patch).then (cmpPrerelease a.prerelease b.prerelease)))

theorem orderingThen_eq_iff (a b : Ordering) :
    a.then b = .eq ↔ a = .eq ∧ b = .eq := by
  cases a <;> simp [Ordering.then]

theorem natCmp_eq_iff (a b : Nat) : natCmp a b = .eq ↔ a = b := by
  unfold natCmp
  split
  · next h =>
    simp only [reduceCtorEq, false_iff]
    exact fun hab => absurd (hab ▸ h) (lt_irrefl b)
  · split
    · next h => simp [h]
    · next h => simp [h]

theorem strCmp_eq_iff (a b : String) : strCmp a b = .eq ↔ a = b := by
  unfold strCmp
  split
  · next h =>
    simp only [reduceCtorEq, false_iff]
    exact fun hab => absurd (hab ▸ h) (lt_irrefl b)
  · split
    · next h => simp [h]
    · next h => simp [h]

theorem preIdCmp_eq_iff (a b : PreId) : PreId.cmp a b = .eq ↔ a = b := by
  cases a <;> cases b <;> simp [PreId.cmp, natCmp_eq_iff, strCmp_eq_iff]

theorem cmpPreList_eq_iff (as bs : List PreId) :
    cmpPreList as bs = .eq ↔ as = bs := by
  induction as generalizing bs with
  | nil => cases bs <;> simp [cmpPreList]
  | cons a as ih =>
    cases bs with
    | nil => simp [cmpPreList]
    | cons b bs =>
      simp [cmpPreList, orderingThen_eq_iff, preIdCmp_eq_iff, ih]

theorem cmpPrerelease_eq_iff (as bs : List PreId) :
    cmpPrerelease as bs = .eq ↔ as = bs := by
  match as, bs with
  | [], [] => simp [cmpPrerelease]
  | [], _ :: _ => simp [cmpPrerelease]
  | _ :: _, [] => simp [cmpPrerelease]
  | a :: as, b :: bs =>
    simpa [cmpPrerelease] using cmpPreList_eq_iff (a :: as) (b :: bs)

theorem semverCmp_eq_iff (a b : SemVer) : SemVer.cmp a b = .eq ↔ a = b := by
  cases a; cases b
  simp [SemVer.cmp, orderingThen_eq_iff, natCmp_eq_iff, cmpPrerelease_eq_iff,
    SemVer.mk.injEq]

/-- The fields of a package manifest that the version policies touch. -/
structure PackageJson where
  name : String
  version : SemVer
deriving DecidableEq, Repr

/-- The two version policy kinds of VersionPolicy.ts.  The lock-step fields
not consulted by ensure/validate (policyName, nextBump) are omitted. -/
inductive VersionPolicy where
  | lockStep (version : SemVer) : VersionPolicy
  | individual (lockedMajor : Option Nat) : VersionPolicy
deriving DecidableEq, Repr

/-- Embeds `ensure(project)` of both policy classes.  `ok none` means the
source returned `undefined` (no change); `ok (some p)` is the rewritten
manifest; `error` is a thrown exception.
For the individual policy the source guards with `if (this.lockedMajor)`,
a JS truthiness test, so a lockedMajor of 0 behaves like an unset one. -/
def VersionPolicy.ensure : VersionPolicy → PackageJson →
    Except String (Option PackageJson)
  | .lockStep v, pkg =>
    match SemVer.cmp pkg.version v with
    | .eq => .ok none
    | .gt => .error ("Version in package " ++ pkg.name
        ++ " is higher than locked version.")
    | .lt => .ok (some { pkg with version := v })
  | .individual lockedMajor, pkg =>
    match lockedMajor with
    | some m =>
      if m ≠ 0 then
        if pkg.version.major < m then
          .ok (some { pkg with version := ⟨m, 0, 0, []⟩ })
        else if pkg.version.major > m then
          .error ("Version in package " ++ pkg.name
            ++ " is higher than locked major version.")
        else .ok none
      else .ok none
    | none => .ok none

/-- Embeds `validate(versionString, packageName)` of both policy classes.
The individual policy checks `this._lockedMajor !== undefined`, so a
lockedMajor of 0 is enforced here even though ensure ignored it. -/
def VersionPolicy.validate : VersionPolicy → SemVer → String →
    Except String Unit
  | .lockStep v, versionToTest, packageName =>
    if SemVer.cmp v versionToTest ≠ .eq then
      .error ("Invalid version in " ++ packageName)
    else .ok ()
  | .individual lockedMajor, versionToTest, packageName =>
    match lockedMajor with
    | some m =>
      if m ≠ versionToTest.major then
        .error ("Invalid major version in " ++ packageName)
      else .ok ()
    | none => .ok ()

/-- C2 counterexample: an individual policy with lockedMajor set to 0 and a
package at version 1.0.0.  ensure completes without raising and returns no
change (the truthy guard ignores the 0), yet validate on the package's own
version raises, because validate tests lockedMajor against undefined
instead of truthiness. -/
theorem ensure_validate_zero_locked_major :
    VersionPolicy.ensure (.individual (some 0)) ⟨"pkg-c", ⟨1, 0, 0, []⟩⟩
        = .ok none
      ∧ VersionPolicy.validate (.individual (some 0)) ⟨1, 0, 0, []⟩ "pkg-c"
        = .error "Invalid major version in pkg-c" := ⟨rfl, rfl⟩

/-- C2 (amended): for lock-step policies with any stored version, and for
individual policies whose lockedMajor is set to a nonzero value, if ensure
completes without raising then validate applied to the resulting version
(the rewritten one when ensure returned an update, the package's own one
otherwise) does not raise. -/
theorem ensure_then_validate_ok (p : VersionPolicy) (pkg : PackageJson)
    (hnz : ∀ m, p = .individual (some m) → m ≠ 0)
    (res : Option PackageJson) (h : p.ensure pkg = .ok res) :
    p.validate ((res.getD pkg).version) pkg.name = .ok () := by
  cases p with
  | lockStep v =>
    simp only [VersionPolicy.ensure] at h
    rcases hc : SemVer.cmp pkg.version v with _ | _ | _ <;> rw [hc] at h
    · cases h
      simp [VersionPolicy.validate, (semverCmp_eq_iff v v).mpr rfl]
    · have hv : pkg.version = v := (semverCmp_eq_iff _ _).mp hc
      cases h
      simp [VersionPolicy.validate, hv, (semverCmp_eq_iff v v).mpr rfl]
    · cases h
  | individual lockedMajor =>
    cases lockedMajor with
    | none => cases h; simp [VersionPolicy.validate]
    | some m =>
      have hm : m ≠ 0 := hnz m rfl
      simp only [VersionPolicy.ensure, hm, ne_eq, not_false_eq_true,
        if_true] at h
      by_cases hlt : pkg.version.major < m
      · rw [if_pos hlt] at h
        cases h
        simp [VersionPolicy.validate]
      · rw [if_neg hlt] at h
        by_cases hgt : pkg.version.major > m
        · rw [if_pos hgt] at h
          cases h
        · rw [if_neg hgt] at h
          cases h
          have : m = pkg.version.major := le_antisymm (not_lt.mp hlt) (not_lt.mp hgt)
          simp [VersionPolicy.validate, this]

/-- C2 witness: the amended theorem applied to the spec's scenario 2 ---
an individual policy with lockedMajor 2 rewrites a package at 1.9.5
to 2.0.0, and validate accepts the result. -/
theorem ensure_then_validate_ok_witness :
    VersionPolicy.validate (.individual (some 2)) ⟨2, 0, 0, []⟩ "pkg-c"
      = .ok () := by
  have h := ensure_then_validate_ok (.individual (some 2)) ⟨"pkg-c", ⟨1, 9, 5, []⟩⟩
    (by intro m hm; cases hm; decide) (some ⟨"pkg-c", ⟨2, 0, 0, []⟩⟩) rfl
  simpa using h

/- ===================================================================
   C3 and C6: ProjectBuildTask._executeTask and _areShallowEqual
   Source: ProjectBuildTask.ts section of the combined
   RushConfigurationProject.ts file (lines 385-582).

   The run of one build task is modelled as a pure transition from its
   inputs (the fingerprint file found on disk, the freshly computed
   fingerprint, the scripts, and the external build outcome) to its
   terminal status together with the resulting on-disk state of the
   package-deps.json file.
   =================================================================== -/

/-- The content of a package-deps record: the file-to-hash map plus the exact
build command line (IPackageDependencies). -/
structure PackageDependencies where
  files : List (String × String)
  arguments : String
deriving DecidableEq, Repr

/-- JS property read `object[n]` on a string-keyed object viewed as a list of
key-value pairs. -/
def jsGet (o : List (String × String)) (k : String) : Option String :=
  (o.find? (fun p => p.1 == k)).map (·.2)

/-- Embeds `_areShallowEqual(object1, object2, writer)`: the first loop
returns false when a key of object1 is missing from object2 or maps to a
different value; the second loop returns false when object2 has a key not in
object1. -/
def areShallowEqual (object1 object2 : List (String × String)) : Bool :=
  (object1.map Prod.fst).all (fun n =>
    match jsGet object1 n, jsGet object2 n with
    | some v1, some v2 => v1 == v2
    | _, _ => false)
  && (object2.map Prod.fst).all (fun n => (jsGet object1 n).isSome)

/-- Terminal statuses a build task run can produce.  `failure` covers the
promise rejection path: the TaskRunner catch handler marks a rejected task
as failed. -/
inductive BuildOutcome where
  | skipped
  | success
  | successWithWarning
  | failure
deriving DecidableEq, Repr

/-- The inputs of one `_executeTask` run.  `lastDepsOnDisk` is the parsed
package-deps.json when the file exists; `currentDeps` is `undefined` when
the change analyzer threw (`_getPackageDependencies` catch branch);
`cleanScript` is the raw `scripts.clean` entry; `buildCommand` is the result
of `_getBuildCommand` (empty exactly when the script is declared blank);
`exitCode`, `errorCount` and `sawStderrData` describe the child process. -/
structure BuildTaskInput where
  lastDepsOnDisk : Option PackageDependencies
  currentDeps : Option PackageDependencies
  isIncrementalBuildAllowed : Bool
  cleanScript : Option String
  cleanFails : Bool
  buildCommand : String
  exitCode : Nat
  errorCount : Nat
  sawStderrData : Bool
deriving Repr

/-- The observable result of one `_executeTask` run: the terminal status,
whether package-deps.json exists on disk afterwards, and whether the clean
and build scripts were invoked. -/
structure BuildTaskResult where
  outcome : BuildOutcome
  depsFileExists : Bool
  ranClean : Bool
  ranBuild : Bool
deriving DecidableEq, Repr

/-- Embeds the `isPackageUnchanged` computation of `_executeTask`:
both records exist, the command lines agree, and the file maps are
shallow-equal. -/
def isPackageUnchanged (i : BuildTaskInput) : Bool :=
  match i.lastDepsOnDisk, i.currentDeps with
  | some lastPackageDeps, some currentPackageDeps =>
    currentPackageDeps.arguments == lastPackageDeps.arguments
      && areShallowEqual currentPackageDeps.files lastPackageDeps.files
  | _, _ => false

/-- Embeds `_executeTask`.  The skip branch resolves Skipped and leaves the
fingerprint file untouched.  The rebuild branch first removes the
fingerprint file, then throws when no clean script is declared, runs a
non-blank clean script (rejecting when it fails), short-circuits to Success
when the build command is blank, and otherwise classifies the child process
outcome; the fingerprint is rewritten only in the clean zero-exit case and
only when a current fingerprint was computed. -/
def executeTask (i : BuildTaskInput) : BuildTaskResult :=
  if isPackageUnchanged i && i.isIncrementalBuildAllowed then
    { outcome := .skipped, depsFileExists := i.lastDepsOnDisk.isSome,
      ranClean := false, ranBuild := false }
  else
    match i.cleanScript with
    | none =>
      { outcome := .failure, depsFileExists := false,
        ranClean := false, ranBuild := false }
    | some cleanCommand =>
      if cleanCommand != "" && i.cleanFails then
        { outcome := .failure, depsFileExists := false,
          ranClean := true, ranBuild := false }
      else if i.buildCommand == "" then
        { outcome := .success, depsFileExists := false,
          ranClean := cleanCommand != "", ranBuild := false }
      else if i.exitCode != 0 || i.errorCount != 0 then
        { outcome := .failure, depsFileExists := false,
          ranClean := cleanCommand != "", ranBuild := true }
      else if i.sawStderrData then
        { outcome := .successWithWarning, depsFileExists := false,
          ranClean := cleanCommand != "", ranBuild := true }
      else
        { outcome := .success, depsFileExists := i.currentDeps.isSome,
          ranClean := cleanCommand != "", ranBuild := true }

theorem isPackageUnchanged_lastSome {i : BuildTaskInput}
    (h : isPackageUnchanged i = true) : i.lastDepsOnDisk.isSome := by
  unfold isPackageUnchanged at h
  rcases hl : i.lastDepsOnDisk with _ | last <;> rw [hl] at h
  · rcases i.currentDeps <;> simp at h
  · simp

theorem jsGet_cons (p : String × String) (ps : List (String × String))
    (k : String) :
    jsGet (p :: ps) k = if p.1 == k then some p.2 else jsGet ps k := by
  unfold jsGet
  rcases h : p.1 == k <;> simp [List.find?_cons, h]

theorem jsGet_isSome_iff (o : List (String × String)) (k : String) :
    (jsGet o k).isSome = true ↔ k ∈ o.map Prod.fst := by
  induction o with
  | nil => simp [jsGet]
  | cons p ps ih =>
    rw [jsGet_cons]
    rcases h : p.1 == k
    · have hne : ¬p.1 = k := by simpa using h
      simp [h, ih, hne, Ne.symm hne]
    · have heq : p.1 = k := by simpa using h
      simp [h, heq]

/-- _areShallowEqual holds exactly when the two objects agree as partial
maps: every key lookup gives the same result on both sides (which captures
both the same key set and an equal value for every key). -/
theorem areShallowEqual_iff (a b : List (String × String)) :
    areShallowEqual a b = true ↔ ∀ k, jsGet a k = jsGet b k := by
  unfold areShallowEqual
  rw [Bool.and_eq_true, List.all_eq_true, List.all_eq_true]
  constructor
  · rintro ⟨h1, h2⟩ k
    by_cases hk : k ∈ a.map Prod.fst
    · have hm := h1 k hk
      rcases ha : jsGet a k with _ | v1
      · rw [← jsGet_isSome_iff] at hk
        rw [ha] at hk
        simp at hk
      · rcases hb : jsGet b k with _ | v2
        · rw [ha, hb] at hm
          simp at hm
        · rw [ha, hb] at hm
          simp only [beq_iff_eq] at hm
          rw [hm]
    · have ha : jsGet a k = none := by
        rcases h : jsGet a k with _ | v
        · rfl
        · exact absurd ((jsGet_isSome_iff a k).mp (by simp [h])) hk
      have hb : jsGet b k = none := by
        rcases h : jsGet b k with _ | v
        · rfl
        · have hkb : k ∈ b.map Prod.fst := (jsGet_isSome_iff b k).mp (by simp [h])
          have := h2 k hkb
          rw [ha] at this
          simp at this
      rw [ha, hb]
  · intro h
    refine ⟨fun n hn => ?_, fun n hn => ?_⟩
    · have hsome : (jsGet a n).isSome = true := (jsGet_isSome_iff a n).mpr hn
      rcases ha : jsGet a n with _ | v
      · rw [ha] at hsome
        simp at hsome
      · rw [← h n, ha]
        simp
    · have hsome : (jsGet b n).isSome = true := (jsGet_isSome_iff b n).mpr hn
      rw [h n]
      exact hsome

/-- The skip decision of _executeTask, isolated: skipping happens exactly
when the unchanged test passes and incremental build is allowed. -/
theorem executeTask_skipped_iff (i : BuildTaskInput) :
    (executeTask i).outcome = .skipped ↔
      (isPackageUnchanged i && i.isIncrementalBuildAllowed) = true := by
  unfold executeTask
  split
  · next h => simp [h]
  · next h =>
    split
    · simp [h]
    · split
      · simp [h]
      · split
        · simp [h]
        · split
          · simp [h]
          · split
            · simp [h]
            · simp [h]

/-- The unchanged test, characterized: both fingerprint records exist, their
command lines agree, and their file maps agree on every key lookup. -/
theorem isPackageUnchanged_iff (i : BuildTaskInput) :
    isPackageUnchanged i = true ↔
      ∃ lastPackageDeps currentPackageDeps,
        i.lastDepsOnDisk = some lastPackageDeps
          ∧ i.currentDeps = some currentPackageDeps
          ∧ currentPackageDeps.arguments = lastPackageDeps.arguments
          ∧ ∀ k, jsGet currentPackageDeps.files k
              = jsGet lastPackageDeps.files k := by
  unfold isPackageUnchanged
  rcases hl : i.lastDepsOnDisk with _ | last
  · simp [hl]
  · rcases hc : i.currentDeps with _ | current
    · simp [hl, hc]
    · rw [Bool.and_eq_true, beq_iff_eq, areShallowEqual_iff]
      simp [hl, hc]

/-- A concrete fingerprint record used by the C3 counterexample and the C6
witness: the hash map of the spec's incremental-skip scenario. -/
def unchangedDeps : PackageDependencies :=
  { files := [("src/a.ts", "H1"), ("src/b.ts", "H2")],
    arguments := "build --production" }

/-- A complete task input whose fingerprints match, with incremental build
allowed. -/
def skipRunInput : BuildTaskInput :=
  { lastDepsOnDisk := some unchangedDeps,
    currentDeps := some unchangedDeps,
    isIncrementalBuildAllowed := true,
    cleanScript := some "gulp clean",
    cleanFails := false,
    buildCommand := "gulp test --color",
    exitCode := 0,
    errorCount := 0,
    sawStderrData := false }

/-- C3 counterexample: a run that terminates with status Skipped leaves the
fingerprint file on disk, although Skipped is a terminal status different
from Success --- refuting "the file exists iff the terminal status is
Success". -/
theorem depsFile_present_after_skipped_run :
    executeTask skipRunInput
        = { outcome := .skipped, depsFileExists := true,
            ranClean := false, ranBuild := false }
      ∧ BuildOutcome.skipped ≠ BuildOutcome.success := by
  refine ⟨rfl, by decide⟩

/-- C3 (amended): after any `_executeTask` run, the fingerprint file exists
on disk iff the terminal status is Skipped, or the terminal status is
Success with a current fingerprint that was actually computed and a
non-blank build command.  (It is true that the file is removed before any
build starts and rewritten only on a clean zero-exit build.) -/
theorem depsFileExists_characterization (i : BuildTaskInput) :
    (executeTask i).depsFileExists = true ↔
      ((executeTask i).outcome = .skipped
        ∨ ((executeTask i).outcome = .success
            ∧ i.currentDeps.isSome = true ∧ i.buildCommand ≠ "")) := by
  unfold executeTask
  split
  · next h =>
    rw [Bool.and_eq_true] at h
    have hl := isPackageUnchanged_lastSome h.1
    simp [hl]
  · next h =>
    split
    · simp
    · next cleanCommand =>
      split
      · simp
      · split
        · next hb =>
          have : i.buildCommand = "" := by simpa using hb
          simp [this]
        · next hb =>
          have hbne : i.buildCommand ≠ "" := by simpa using hb
          split
          · simp
          · split
            · simp
            · simp [hbne]

/-- C6: a build task returns Skipped, without invoking the clean or build
scripts, exactly when a previous fingerprint exists, a current fingerprint
was computed, the two agree on the command line and on every file-hash
lookup (same key set, equal hash per key), and incremental build is
permitted; when the current fingerprint could not be computed the task never
skips (full rebuild). -/
theorem skipped_exactly_when_fingerprints_match (i : BuildTaskInput) :
    ((executeTask i).outcome = .skipped ↔
        i.isIncrementalBuildAllowed = true
          ∧ ∃ lastPackageDeps currentPackageDeps,
              i.lastDepsOnDisk = some lastPackageDeps
                ∧ i.currentDeps = some currentPackageDeps
                ∧ currentPackageDeps.arguments = lastPackageDeps.arguments
                ∧ ∀ k, jsGet currentPackageDeps.files k
                    = jsGet lastPackageDeps.files k)
      ∧ ((executeTask i).outcome = .skipped →
          (executeTask i).ranClean = false ∧ (executeTask i).ranBuild = false)
      ∧ (i.currentDeps = none → (executeTask i).outcome ≠ .skipped) := by
  have hskip := executeTask_skipped_iff i
  refine ⟨?_, ?_, ?_⟩
  · rw [hskip, Bool.and_eq_true, isPackageUnchanged_iff]
    tauto
  · intro h
    rw [hskip] at h
    have hrec : executeTask i
        = { outcome := .skipped, depsFileExists := i.lastDepsOnDisk.isSome,
            ranClean := false, ranBuild := false } := by
      unfold executeTask
      rw [if_pos h]
    rw [hrec]
    exact ⟨rfl, rfl⟩
  · intro hnone h
    rw [hskip, Bool.and_eq_true, isPackageUnchanged_iff] at h
    obtain ⟨⟨_, current, _, hc, _⟩, _⟩ := h
    rw [hnone] at hc
    cases hc

/-- C6 witness: on the concrete matching-fingerprint input the task is
skipped. -/
theorem skipped_exactly_when_fingerprints_match_witness :
    (executeTask skipRunInput).outcome = .skipped :=
  (skipped_exactly_when_fingerprints_match skipRunInput).1.mpr
    ⟨rfl, unchangedDeps, unchangedDeps, rfl, rfl, rfl, fun _ => rfl⟩

/- ===================================================================
   C4, C9, C10: the TaskRunner scheduler
   Source: TaskRunner.ts section of the combined
   RushConfigurationProject.ts file (lines 604-960).

   Tasks are indices into Fin n.  The static dependency graph G is the
   wiring performed by addDependencies: `d ∈ G u` means u depends on d;
   the source's dependents sets are the (never-changing) inverse of G.
   The mutable per-task state is the status, the shrinking dependencies
   set, and the isIncrementalBuildAllowed flag.  A scheduler run is a
   sequence of events: _startAvailableTasks starting a ready task with an
   empty deps set, or an executing task completing with a result status
   (a rejected promise is routed by the catch handler through
   _markTaskAsFailed and therefore behaves as a Failure result).
   =================================================================== -/

/-- The task statuses of TaskStatus.ts. -/
inductive TaskStatus where
  | ready
  | executing
  | success
  | successWithWarning
  | skipped
  | blocked
  | failure
deriving DecidableEq, Repr

/-- The mutable scheduler state over n registered tasks. -/
structure TRState (n : Nat) where
  status : Fin n → TaskStatus
  deps : Fin n → Finset (Fin n)
  inc : Fin n → Bool

/-- The dependents of t: the tasks whose static dependencies include t
(the source maintains these sets explicitly; they never change). -/
def dependents {n : Nat} (G : Fin n → Finset (Fin n)) (t : Fin n) :
    Finset (Fin n) :=
  Finset.univ.filter (fun u => t ∈ G u)

/-- The dependents as a list, for the blocking work list (sorted to keep
the definition executable; the traversal order does not affect the
resulting state). -/
def dependentsList {n : Nat} (G : Fin n → Finset (Fin n)) (t : Fin n) :
    List (Fin n) :=
  (dependents G t).sort (fun a b => a ≤ b)

/-- Overwrite one task's status. -/
def setStatus {n : Nat} (s : TRState n) (t : Fin n) (st : TaskStatus) :
    TRState n :=
  { s with status := fun u => if u = t then st else s.status u }

/-- Number of Ready tasks (the blocking recursion's termination measure). -/
def readyCount {n : Nat} (s : TRState n) : Nat :=
  (Finset.univ.filter (fun u => s.status u = .ready)).card

theorem readyCount_setStatus_blocked {n : Nat} (s : TRState n) (u : Fin n)
    (h : s.status u = .ready) :
    readyCount (setStatus s u .blocked) < readyCount s := by
  unfold readyCount setStatus
  have hset : (Finset.univ.filter
        (fun v : Fin n => (if v = u then TaskStatus.blocked else s.status v)
          = .ready))
      = (Finset.univ.filter (fun v : Fin n => s.status v = .ready)).erase u := by
    ext v
    by_cases hv : v = u
    · subst hv
      simp
    · simp [hv]
  simp only [hset]
  exact Finset.card_erase_lt_of_mem (by simp [h])

/-- Embeds the recursion of `TaskRunner._markTaskAsBlocked` as a work list:
visiting a task that is still Ready marks it Blocked and pushes its
dependents (the recursive forEach); a task in any other status is skipped,
which is exactly the source's `if (task.status === TaskStatus.Ready)`
guard. -/
def blockLoop {n : Nat} (G : Fin n → Finset (Fin n)) :
    TRState n → List (Fin n) → TRState n
  | s, [] => s
  | s, u :: ws =>
    if s.status u = .ready then
      blockLoop G (setStatus s u .blocked) (dependentsList G u ++ ws)
    else
      blockLoop G s ws
termination_by s ws => (readyCount s, ws.length)
decreasing_by
  · exact Prod.Lex.left _ _ (readyCount_setStatus_blocked s u (by assumption))
  · exact Prod.Lex.right _ (Nat.lt_succ_self _)

/-- Embeds `TaskRunner._markTaskAsSuccess`: set the task's status and, for
each dependent, clear isIncrementalBuildAllowed and delete the task from
the dependent's dependencies set. -/
def markTaskAsSuccess {n : Nat} (G : Fin n → Finset (Fin n)) (s : TRState n)
    (t : Fin n) : TRState n :=
  { status := fun u => if u = t then .success else s.status u,
    deps := fun u => if u ∈ dependents G t then (s.deps u).erase t
      else s.deps u,
    inc := fun u => if u ∈ dependents G t then false else s.inc u }

/-- Embeds `TaskRunner._markTaskAsSuccessWithWarning` (same effects as
success, different status and colour). -/
def markTaskAsSuccessWithWarning {n : Nat} (G : Fin n → Finset (Fin n))
    (s : TRState n) (t : Fin n) : TRState n :=
  { status := fun u => if u = t then .successWithWarning else s.status u,
    deps := fun u => if u ∈ dependents G t then (s.deps u).erase t
      else s.deps u,
    inc := fun u => if u ∈ dependents G t then false else s.inc u }

/-- Embeds `TaskRunner._markTaskAsSkipped`: set the status and delete the
task from each dependent's dependencies set; the incremental flags are left
alone. -/
def markTaskAsSkipped {n : Nat} (G : Fin n → Finset (Fin n)) (s : TRState n)
    (t : Fin n) : TRState n :=
  { status := fun u => if u = t then .skipped else s.status u,
    deps := fun u => if u ∈ dependents G t then (s.deps u).erase t
      else s.deps u,
    inc := s.inc }

/-- Embeds `TaskRunner._markTaskAsFailed`: set the status to Failure, then
recursively block the Ready transitive dependents. -/
def markTaskAsFailed {n : Nat} (G : Fin n → Finset (Fin n)) (s : TRState n)
    (t : Fin n) : TRState n :=
  blockLoop G (setStatus s t .failure) (dependentsList G t)

/-- The result delivered by a task's execute promise: the three resolve
statuses, or failure (covering both the resolved-Failure case and the
rejection path, which the catch handler routes to _markTaskAsFailed). -/
inductive TaskResult where
  | success
  | successWithWarning
  | skipped
  | failure
deriving DecidableEq, Repr

/-- One scheduler event. -/
inductive TROp (n : Nat) where
  | start (t : Fin n)
  | finish (t : Fin n) (r : TaskResult)
deriving DecidableEq

/-- Number of currently executing tasks (`_currentActiveTasks`). -/
def executingCount {n : Nat} (s : TRState n) : Nat :=
  (Finset.univ.filter (fun u => s.status u = .executing)).card

/-- When an event can fire: `_getNextTask` returns only a Ready task whose
dependencies set is empty, and `_startAvailableTasks` starts tasks only
while `_currentActiveTasks < _parallelism`; a completion event requires the
task to be Executing. -/
def enabledOp {n : Nat} (G : Fin n → Finset (Fin n)) (W : Nat)
    (s : TRState n) : TROp n → Prop
  | .start t => s.status t = .ready ∧ s.deps t = ∅ ∧ executingCount s < W
  | .finish t _ => s.status t = .executing

/-- The state transition of one event. -/
def applyOp {n : Nat} (G : Fin n → Finset (Fin n)) (s : TRState n) :
    TROp n → TRState n
  | .start t => setStatus s t .executing
  | .finish t r =>
    match r with
    | .success => markTaskAsSuccess G s t
    | .successWithWarning => markTaskAsSuccessWithWarning G s t
    | .skipped => markTaskAsSkipped G s t
    | .failure => markTaskAsFailed G s t

/-- A valid run: every event is enabled in the state it fires from. -/
def ValidRun {n : Nat} (G : Fin n → Finset (Fin n)) (W : Nat) :
    TRState n → List (TROp n) → Prop
  | _, [] => True
  | s, op :: ops => enabledOp G W s op ∧ ValidRun G W (applyOp G s op) ops

/-- Execute a list of events. -/
def execRun {n : Nat} (G : Fin n → Finset (Fin n)) (s : TRState n)
    (ops : List (TROp n)) : TRState n :=
  ops.foldl (applyOp G) s

/-- The state right after registration: all tasks Ready, dependencies as
wired, incremental flags from the task definitions. -/
def initState {n : Nat} (G : Fin n → Finset (Fin n)) (inc0 : Fin n → Bool) :
    TRState n :=
  { status := fun _ => .ready, deps := G, inc := inc0 }

/-- d is a direct or transitive dependency of u in the static graph. -/
def depTrans {n : Nat} (G : Fin n → Finset (Fin n)) (d u : Fin n) : Prop :=
  Relation.TransGen (fun a b => a ∈ G b) d u

/-- The statuses a task can finish with that unblock its dependents. -/
def successful (st : TaskStatus) : Prop :=
  st = .success ∨ st = .successWithWarning ∨ st = .skipped

instance successful.dec (st : TaskStatus) : Decidable (successful st) := by
  unfold successful
  infer_instance

/-- How many times the run starts task u. -/
def countStarts {n : Nat} (ops : List (TROp n)) (u : Fin n) : Nat :=
  ops.countP (fun op => decide (op = .start u))

/-- How many events flip task u into the Blocked status. -/
def blockedFlips {n : Nat} (G : Fin n → Finset (Fin n)) :
    TRState n → List (TROp n) → Fin n → Nat
  | _, [], _ => 0
  | s, op :: ops, u =>
    (if s.status u ≠ .blocked ∧ (applyOp G s op).status u = .blocked
      then 1 else 0)
      + blockedFlips G (applyOp G s op) ops u

theorem blockLoop_deps_inc {n : Nat} (G : Fin n → Finset (Fin n))
    (s : TRState n) (ws : List (Fin n)) :
    (blockLoop G s ws).deps = s.deps ∧ (blockLoop G s ws).inc = s.inc := by
  induction s, ws using blockLoop.induct (G := G) with
  | case1 s => simp [blockLoop]
  | case2 s u ws h ih =>
    rw [blockLoop, if_pos h]
    exact ih
  | case3 s u ws h ih =>
    rw [blockLoop, if_neg h]
    exact ih

/-- The blocking recursion only moves statuses from Ready to Blocked. -/
theorem blockLoop_status {n : Nat} (G : Fin n → Finset (Fin n))
    (s : TRState n) (ws : List (Fin n)) (u : Fin n) :
    (blockLoop G s ws).status u = s.status u
      ∨ (s.status u = .ready ∧ (blockLoop G s ws).status u = .blocked) := by
  induction s, ws using blockLoop.induct (G := G) with
  | case1 s => simp [blockLoop]
  | case2 s u0 ws h ih =>
    rw [blockLoop, if_pos h]
    by_cases hu : u = u0
    · subst hu
      rcases ih with ih | ih
      · right
        rw [ih]
        simp [setStatus, h]
      · right
        exact ⟨h, ih.2⟩
    · rcases ih with ih | ih
      · left
        rw [ih]
        simp [setStatus, hu]
      · right
        refine ⟨?_, ih.2⟩
        have := ih.1
        simpa [setStatus, hu] using this
  | case3 s u0 ws h ih =>
    rw [blockLoop, if_neg h]
    exact ih

theorem blockLoop_status_of_ne_ready {n : Nat} (G : Fin n → Finset (Fin n))
    (s : TRState n) (ws : List (Fin n)) (u : Fin n)
    (h : s.status u ≠ .ready) :
    (blockLoop G s ws).status u = s.status u := by
  rcases blockLoop_status G s ws u with h1 | h1
  · exact h1
  · exact absurd h1.1 h

/-- Completeness of the blocking recursion: if every already blocked or
failed task either has no Ready dependents or has them scheduled on the
work list, then after the recursion no blocked or failed task has a Ready
dependent. -/
theorem blockLoop_complete {n : Nat} (G : Fin n → Finset (Fin n))
    (s : TRState n) (ws : List (Fin n))
    (hws : ∀ d, (s.status d = .blocked ∨ s.status d = .failure) →
      ∀ u, d ∈ G u → s.status u ≠ .ready ∨ u ∈ ws) :
    ∀ d, ((blockLoop G s ws).status d = .blocked
        ∨ (blockLoop G s ws).status d = .failure) →
      ∀ u, d ∈ G u → (blockLoop G s ws).status u ≠ .ready := by
  revert hws
  induction s, ws using blockLoop.induct (G := G) with
  | case1 s =>
    intro hws d hd u hGu
    rw [blockLoop] at hd ⊢
    rcases hws d hd u hGu with h | h
    · exact h
    · cases h
  | case2 s u0 ws h ih =>
    intro hws
    rw [blockLoop, if_pos h]
    apply ih
    intro d hd u hGu
    by_cases hdu : d = u0
    · subst hdu
      right
      rw [List.mem_append]
      left
      rw [dependentsList, Finset.mem_sort, dependents, Finset.mem_filter]
      exact ⟨Finset.mem_univ u, hGu⟩
    · have hd0 : s.status d = .blocked ∨ s.status d = .failure := by
        simpa [setStatus, hdu] using hd
      rcases hws d hd0 u hGu with hr | hr
      · left
        by_cases hu : u = u0
        · subst hu
          simp [setStatus]
        · simpa [setStatus, hu] using hr
      · rcases List.mem_cons.mp hr with hu | hu
        · subst hu
          left
          simp [setStatus]
        · right
          rw [List.mem_append]
          right
          exact hu
  | case3 s u0 ws h ih =>
    intro hws
    rw [blockLoop, if_neg h]
    apply ih
    intro d hd u hGu
    rcases hws d hd u hGu with hr | hr
    · left
      exact hr
    · rcases List.mem_cons.mp hr with hu | hu
      · subst hu
        left
        exact h
      · right
        exact hu

/-- Soundness of the blocking recursion relative to any property Q closed
under passing from a task to its dependents: if every work list entry
satisfies Q, then every newly blocked task satisfies Q. -/
theorem blockLoop_sound {n : Nat} (G : Fin n → Finset (Fin n))
    (Q : Fin n → Prop) (hQ : ∀ d u, Q d → d ∈ G u → Q u)
    (s : TRState n) (ws : List (Fin n)) (hws : ∀ w ∈ ws, Q w) :
    ∀ u, (blockLoop G s ws).status u = .blocked →
      s.status u = .blocked ∨ Q u := by
  revert hws
  induction s, ws using blockLoop.induct (G := G) with
  | case1 s =>
    intro _ u hu
    rw [blockLoop] at hu
    exact Or.inl hu
  | case2 s u0 ws h ih =>
    intro hws
    rw [blockLoop, if_pos h]
    have hQu0 : Q u0 := hws u0 (List.mem_cons_self u0 ws)
    have hws2 : ∀ w ∈ dependentsList G u0 ++ ws, Q w := by
      intro w hw
      rcases List.mem_append.mp hw with hw | hw
      · rw [dependentsList, Finset.mem_sort, dependents, Finset.mem_filter] at hw
        exact hQ u0 w hQu0 hw.2
      · exact hws w (List.mem_cons_of_mem u0 hw)
    intro u hu
    rcases ih hws2 u hu with hs | hs
    · by_cases hu0 : u = u0
      · subst hu0
        exact Or.inr hQu0
      · left
        simpa [setStatus, hu0] using hs
    · exact Or.inr hs
  | case3 s u0 ws h ih =>
    intro hws
    rw [blockLoop, if_neg h]
    exact ih (fun w hw => hws w (List.mem_cons_of_mem u0 hw))

/-- The inductive invariant of reachable scheduler states:
dependencies only shrink within the wired graph; a wired dependency is still
in the deps set exactly while it has not finished successfully; a blocked or
failed task has no Ready dependent; a task that started has only
successfully finished dependencies; and a blocked task has a failed
transitive dependency. -/
structure SchedInv {n : Nat} (G : Fin n → Finset (Fin n)) (s : TRState n) :
    Prop where
  deps_sub : ∀ u, s.deps u ⊆ G u
  deps_iff : ∀ u d, d ∈ G u → (d ∈ s.deps u ↔ ¬ successful (s.status d))
  blocked_dependents : ∀ d, (s.status d = .blocked ∨ s.status d = .failure) →
    ∀ u, d ∈ G u → s.status u ≠ .ready
  started_deps : ∀ u, (s.status u = .executing ∨ successful (s.status u)) →
    ∀ d, d ∈ G u → successful (s.status d)
  blocked_has_failed : ∀ u, s.status u = .blocked →
    ∃ d, depTrans G d u ∧ s.status d = .failure

theorem schedInv_init {n : Nat} (G : Fin n → Finset (Fin n))
    (inc0 : Fin n → Bool) : SchedInv G (initState G inc0) := by
  constructor
  · intro u x hx
    exact hx
  · intro u d hd
    simp [initState, successful, hd]
  · intro d hd
    rcases hd with hd | hd <;> simp [initState] at hd
  · intro u hu
    rcases hu with hu | hu <;> simp [initState, successful] at hu
  · intro u hu
    simp [initState] at hu

theorem schedInv_start {n : Nat} (G : Fin n → Finset (Fin n)) (s : TRState n)
    (t : Fin n) (hready : s.status t = .ready) (hdeps : s.deps t = ∅)
    (hinv : SchedInv G s) : SchedInv G (setStatus s t .executing) := by
  have hstat : ∀ u, (setStatus s t .executing).status u
      = if u = t then .executing else s.status u := fun u => rfl
  have hdeps2 : ∀ u, (setStatus s t .executing).deps u = s.deps u :=
    fun u => rfl
  constructor
  · intro u
    rw [hdeps2]
    exact hinv.deps_sub u
  · intro u d hd
    rw [hstat, hdeps2]
    by_cases hdt : d = t
    · rw [if_pos hdt, hdt]
      have hmem : t ∈ s.deps u :=
        (hinv.deps_iff u t (hdt ▸ hd)).mpr (by simp [hready, successful])
      simp [hmem, successful]
    · rw [if_neg hdt]
      exact hinv.deps_iff u d hd
  · intro d hd u hGu
    rw [hstat] at hd ⊢
    by_cases hdt : d = t
    · rw [if_pos hdt] at hd
      rcases hd with hd | hd <;> cases hd
    · rw [if_neg hdt] at hd
      have hne := hinv.blocked_dependents d hd u hGu
      by_cases hut : u = t
      · rw [if_pos hut]
        simp
      · rw [if_neg hut]
        exact hne
  · intro u hu d hGd
    rw [hstat]
    by_cases hut : u = t
    · have hsucc : successful (s.status d) := by
        have hiff := hinv.deps_iff t d (hut ▸ hGd)
        rw [hdeps] at hiff
        simpa using hiff
      have hdt : ¬ d = t := by
        intro hdt
        rw [hdt, hready] at hsucc
        simp [successful] at hsucc
      rw [if_neg hdt]
      exact hsucc
    · rw [hstat, if_neg hut] at hu
      have hsucc := hinv.started_deps u hu d hGd
      have hdt : ¬ d = t := by
        intro hdt
        rw [hdt, hready] at hsucc
        simp [successful] at hsucc
      rw [if_neg hdt]
      exact hsucc
  · intro u hu
    rw [hstat] at hu
    by_cases hut : u = t
    · rw [if_pos hut] at hu
      cases hu
    · rw [if_neg hut] at hu
      obtain ⟨d, htr, hfail⟩ := hinv.blocked_has_failed u hu
      refine ⟨d, htr, ?_⟩
      rw [hstat]
      have hdt : ¬ d = t := by
        intro hdt
        rw [hdt, hready] at hfail
        cases hfail
      rw [if_neg hdt]
      exact hfail

/-- Invariant preservation for the three success-like completions, which
share the status/deps shape and differ only in the incremental flags (the
invariant does not mention those). -/
theorem schedInv_finish_success {n : Nat} (G : Fin n → Finset (Fin n))
    (s : TRState n) (t : Fin n) (st0 : TaskStatus) (incFun : Fin n → Bool)
    (hst0 : successful st0) (hexec : s.status t = .executing)
    (hinv : SchedInv G s) :
    SchedInv G
      { status := fun u => if u = t then st0 else s.status u,
        deps := fun u => if u ∈ dependents G t then (s.deps u).erase t
          else s.deps u,
        inc := incFun } := by
  have hst0_ne_blocked : st0 ≠ .blocked := by
    rcases hst0 with h | h | h <;> rw [h] <;> simp
  have hst0_ne_failure : st0 ≠ .failure := by
    rcases hst0 with h | h | h <;> rw [h] <;> simp
  have hst0_ne_ready : st0 ≠ .ready := by
    rcases hst0 with h | h | h <;> rw [h] <;> simp
  constructor
  · intro u
    dsimp only
    split
    · exact le_trans (Finset.erase_subset t (s.deps u)) (hinv.deps_sub u)
    · exact hinv.deps_sub u
  · intro u d hd
    dsimp only
    by_cases hdt : d = t
    · have hmem : u ∈ dependents G t := by
        rw [dependents, Finset.mem_filter]
        exact ⟨Finset.mem_univ u, hdt ▸ hd⟩
      rw [if_pos hmem, if_pos hdt, hdt]
      simp [hst0]
    · rw [if_neg hdt]
      by_cases hmem : u ∈ dependents G t
      · rw [if_pos hmem, Finset.mem_erase]
        have := hinv.deps_iff u d hd
        simp [hdt, this]
      · rw [if_neg hmem]
        exact hinv.deps_iff u d hd
  · intro d hd u hGu
    dsimp only at hd ⊢
    by_cases hdt : d = t
    · rw [if_pos hdt] at hd
      rcases hd with hd | hd
      · exact absurd hd hst0_ne_blocked
      · exact absurd hd hst0_ne_failure
    · rw [if_neg hdt] at hd
      have hne := hinv.blocked_dependents d hd u hGu
      by_cases hut : u = t
      · rw [if_pos hut]
        exact hst0_ne_ready
      · rw [if_neg hut]
        exact hne
  · intro u hu d hGd
    dsimp only at hu ⊢
    by_cases hut : u = t
    · have hsucc := hinv.started_deps t (Or.inl hexec) d (hut ▸ hGd)
      have hdt : ¬ d = t := by
        intro hdt
        rw [hdt, hexec] at hsucc
        simp [successful] at hsucc
      rw [if_neg hdt]
      exact hsucc
    · rw [if_neg hut] at hu
      have hsucc := hinv.started_deps u hu d hGd
      have hdt : ¬ d = t := by
        intro hdt
        rw [hdt, hexec] at hsucc
        simp [successful] at hsucc
      rw [if_neg hdt]
      exact hsucc
  · intro u hu
    dsimp only at hu ⊢
    by_cases hut : u = t
    · rw [if_pos hut] at hu
      exact absurd hu hst0_ne_blocked
    · rw [if_neg hut] at hu
      obtain ⟨d, htr, hfail⟩ := hinv.blocked_has_failed u hu
      refine ⟨d, htr, ?_⟩
      have hdt : ¬ d = t := by
        intro hdt
        rw [hdt, hexec] at hfail
        cases hfail
      rw [if_neg hdt]
      exact hfail

theorem markTaskAsFailed_deps_inc {n : Nat} (G : Fin n → Finset (Fin n))
    (s : TRState n) (t : Fin n) :
    (markTaskAsFailed G s t).deps = s.deps
      ∧ (markTaskAsFailed G s t).inc = s.inc := by
  unfold markTaskAsFailed
  have h := blockLoop_deps_inc G (setStatus s t .failure) (dependentsList G t)
  exact h

theorem markTaskAsFailed_successful_iff {n : Nat}
    (G : Fin n → Finset (Fin n)) (s : TRState n) (t : Fin n)
    (hexec : s.status t = .executing) (d : Fin n) :
    successful ((markTaskAsFailed G s t).status d)
      ↔ successful (s.status d) := by
  unfold markTaskAsFailed
  rcases blockLoop_status G (setStatus s t .failure) (dependentsList G t) d
    with h | ⟨h1, h2⟩
  · rw [h]
    by_cases hdt : d = t
    · rw [hdt]
      simp [setStatus, hexec, successful]
    · simp [setStatus, hdt]
  · rw [h2]
    have hdt : ¬ d = t := by
      intro h
      rw [h] at h1
      simp [setStatus] at h1
    have hd_ready : s.status d = .ready := by
      simpa [setStatus, hdt] using h1
    simp [hd_ready, successful]

theorem markTaskAsFailed_status_t {n : Nat} (G : Fin n → Finset (Fin n))
    (s : TRState n) (t : Fin n) :
    (markTaskAsFailed G s t).status t = .failure := by
  unfold markTaskAsFailed
  rw [blockLoop_status_of_ne_ready]
  · simp [setStatus]
  · simp [setStatus]

theorem schedInv_failed {n : Nat} (G : Fin n → Finset (Fin n))
    (s : TRState n) (t : Fin n) (hexec : s.status t = .executing)
    (hinv : SchedInv G s) : SchedInv G (markTaskAsFailed G s t) := by
  obtain ⟨hdeps_eq, hinc_eq⟩ := markTaskAsFailed_deps_inc G s t
  have hsucc := markTaskAsFailed_successful_iff G s t hexec
  constructor
  · intro u
    rw [hdeps_eq]
    exact hinv.deps_sub u
  · intro u d hd
    rw [hdeps_eq, hsucc d]
    exact hinv.deps_iff u d hd
  · unfold markTaskAsFailed
    apply blockLoop_complete
    intro d hd u hGu
    by_cases hdt : d = t
    · right
      rw [dependentsList, Finset.mem_sort, dependents, Finset.mem_filter]
      exact ⟨Finset.mem_univ u, hdt ▸ hGu⟩
    · have hd0 : s.status d = .blocked ∨ s.status d = .failure := by
        simpa [setStatus, hdt] using hd
      have hne := hinv.blocked_dependents d hd0 u hGu
      left
      by_cases hut : u = t
      · simp [setStatus, hut]
      · simpa [setStatus, hut] using hne
  · intro u hu d hGd
    have hold : s.status u = .executing ∨ successful (s.status u) := by
      rcases hu with hu | hu
      · left
        unfold markTaskAsFailed at hu
        rcases blockLoop_status G (setStatus s t .failure)
            (dependentsList G t) u with h | ⟨h1, h2⟩
        · rw [h] at hu
          by_cases hut : u = t
          · rw [hut] at hu
            simp [setStatus] at hu
          · simpa [setStatus, hut] using hu
        · rw [h2] at hu
          cases hu
      · right
        exact (hsucc u).mp hu
    have hsd := hinv.started_deps u hold d hGd
    exact (hsucc d).mpr hsd
  · intro u hu
    have hQ : ∀ d u2, depTrans G t d → d ∈ G u2 → depTrans G t u2 :=
      fun d u2 hd hmem => Relation.TransGen.tail hd hmem
    have hseed : ∀ w ∈ dependentsList G t, depTrans G t w := by
      intro w hw
      rw [dependentsList, Finset.mem_sort, dependents, Finset.mem_filter] at hw
      exact Relation.TransGen.single hw.2
    have hft : (markTaskAsFailed G s t).status t = .failure :=
      markTaskAsFailed_status_t G s t
    unfold markTaskAsFailed at hu
    rcases blockLoop_sound G (fun v => depTrans G t v) hQ _ _ hseed u hu
      with hs | hs
    · have hut : ¬ u = t := by
        intro h
        rw [h] at hs
        simp [setStatus] at hs
      have hub : s.status u = .blocked := by
        simpa [setStatus, hut] using hs
      obtain ⟨d, htr, hfail⟩ := hinv.blocked_has_failed u hub
      refine ⟨d, htr, ?_⟩
      have hdt : ¬ d = t := by
        intro h
        rw [h, hexec] at hfail
        cases hfail
      unfold markTaskAsFailed
      rw [blockLoop_status_of_ne_ready]
      · simp [setStatus, hdt, hfail]
      · simp [setStatus, hdt, hfail]
    · exact ⟨t, hs, hft⟩

theorem schedInv_applyOp {n : Nat} (G : Fin n → Finset (Fin n)) (W : Nat)
    (s : TRState n) (op : TROp n) (hen : enabledOp G W s op)
    (hinv : SchedInv G s) : SchedInv G (applyOp G s op) := by
  cases op with
  | start t =>
    obtain ⟨hready, hdeps, _⟩ := hen
    exact schedInv_start G s t hready hdeps hinv
  | finish t r =>
    have hexec : s.status t = .executing := hen
    cases r with
    | success =>
      exact schedInv_finish_success G s t .success _
        (Or.inl rfl) hexec hinv
    | successWithWarning =>
      exact schedInv_finish_success G s t .successWithWarning _
        (Or.inr (Or.inl rfl)) hexec hinv
    | skipped =>
      exact schedInv_finish_success G s t .skipped _
        (Or.inr (Or.inr rfl)) hexec hinv
    | failure =>
      exact schedInv_failed G s t hexec hinv

theorem execRun_cons {n : Nat} (G : Fin n → Finset (Fin n)) (s : TRState n)
    (op : TROp n) (ops : List (TROp n)) :
    execRun G s (op :: ops) = execRun G (applyOp G s op) ops := rfl

theorem schedInv_execRun {n : Nat} (G : Fin n → Finset (Fin n)) (W : Nat)
    (s : TRState n) (ops : List (TROp n)) (hvalid : ValidRun G W s ops)
    (hinv : SchedInv G s) : SchedInv G (execRun G s ops) := by
  induction ops generalizing s with
  | nil => exact hinv
  | cons op ops ih =>
    rw [ValidRun] at hvalid
    rw [execRun_cons]
    exact ih _ hvalid.2 (schedInv_applyOp G W s op hvalid.1 hinv)

theorem applyOp_status_not_ready {n : Nat} (G : Fin n → Finset (Fin n))
    (s : TRState n) (op : TROp n) (u : Fin n) (h : s.status u ≠ .ready) :
    (applyOp G s op).status u ≠ .ready := by
  cases op with
  | start t =>
    by_cases hut : u = t <;> simp [applyOp, setStatus, hut, h]
  | finish t r =>
    cases r with
    | success =>
      by_cases hut : u = t <;> simp [applyOp, markTaskAsSuccess, hut, h]
    | successWithWarning =>
      by_cases hut : u = t <;>
        simp [applyOp, markTaskAsSuccessWithWarning, hut, h]
    | skipped =>
      by_cases hut : u = t <;> simp [applyOp, markTaskAsSkipped, hut, h]
    | failure =>
      show (markTaskAsFailed G s t).status u ≠ .ready
      unfold markTaskAsFailed
      rcases blockLoop_status G (setStatus s t .failure)
          (dependentsList G t) u with hb | ⟨_, hb⟩
      · rw [hb]
        by_cases hut : u = t <;> simp [setStatus, hut, h]
      · rw [hb]
        simp

/-- A task can only become Blocked from Ready (the guard of
_markTaskAsBlocked); every other transition writes a non-Blocked status. -/
theorem applyOp_blocked_source {n : Nat} (G : Fin n → Finset (Fin n))
    (s : TRState n) (op : TROp n) (u : Fin n)
    (h : (applyOp G s op).status u = .blocked) :
    s.status u = .blocked ∨ s.status u = .ready := by
  cases op with
  | start t =>
    by_cases hut : u = t
    · rw [hut] at h ⊢
      simp [applyOp, setStatus] at h
    · simp [applyOp, setStatus, hut] at h
      exact Or.inl h
  | finish t r =>
    cases r with
    | success =>
      by_cases hut : u = t
      · rw [hut] at h
        simp [applyOp, markTaskAsSuccess] at h
      · simp [applyOp, markTaskAsSuccess, hut] at h
        exact Or.inl h
    | successWithWarning =>
      by_cases hut : u = t
      · rw [hut] at h
        simp [applyOp, markTaskAsSuccessWithWarning] at h
      · simp [applyOp, markTaskAsSuccessWithWarning, hut] at h
        exact Or.inl h
    | skipped =>
      by_cases hut : u = t
      · rw [hut] at h
        simp [applyOp, markTaskAsSkipped] at h
      · simp [applyOp, markTaskAsSkipped, hut] at h
        exact Or.inl h
    | failure =>
      replace h : (markTaskAsFailed G s t).status u = .blocked := h
      unfold markTaskAsFailed at h
      rcases blockLoop_status G (setStatus s t .failure)
          (dependentsList G t) u with hb | ⟨hb, _⟩
      · rw [hb] at h
        by_cases hut : u = t
        · rw [hut] at h
          simp [setStatus] at h
        · simp [setStatus, hut] at h
          exact Or.inl h
      · by_cases hut : u = t
        · rw [hut] at hb
          simp [setStatus] at hb
        · simp [setStatus, hut] at hb
          exact Or.inr hb

/-- Statuses other than Ready and Executing are terminal: no enabled event
changes them. -/
theorem applyOp_terminal_stays {n : Nat} (G : Fin n → Finset (Fin n))
    (W : Nat) (s : TRState n) (op : TROp n) (u : Fin n)
    (hen : enabledOp G W s op)
    (h : s.status u ≠ .ready ∧ s.status u ≠ .executing) :
    (applyOp G s op).status u = s.status u := by
  cases op with
  | start t =>
    have hut : ¬ u = t := by
      intro hut
      exact h.1 (hut ▸ hen.1)
    simp [applyOp, setStatus, hut]
  | finish t r =>
    have hexec : s.status t = .executing := hen
    have hut : ¬ u = t := by
      intro hut
      exact h.2 (hut ▸ hexec)
    cases r with
    | success => simp [applyOp, markTaskAsSuccess, hut]
    | successWithWarning => simp [applyOp, markTaskAsSuccessWithWarning, hut]
    | skipped => simp [applyOp, markTaskAsSkipped, hut]
    | failure =>
      show (markTaskAsFailed G s t).status u = s.status u
      unfold markTaskAsFailed
      rw [blockLoop_status_of_ne_ready]
      · simp [setStatus, hut]
      · simp [setStatus, hut]
        exact h.1

theorem terminal_stays_run {n : Nat} (G : Fin n → Finset (Fin n)) (W : Nat)
    (s : TRState n) (ops : List (TROp n)) (hvalid : ValidRun G W s ops)
    (u : Fin n) (h : s.status u ≠ .ready ∧ s.status u ≠ .executing) :
    (execRun G s ops).status u = s.status u := by
  induction ops generalizing s with
  | nil => rfl
  | cons op ops ih =>
    rw [ValidRun] at hvalid
    rw [execRun_cons]
    have hstep := applyOp_terminal_stays G W s op u hvalid.1 h
    rw [ih _ hvalid.2 (by rw [hstep]; exact h)]
    exact hstep

theorem successful_not_ready_executing {st : TaskStatus}
    (h : successful st) : st ≠ .ready ∧ st ≠ .executing := by
  rcases h with h | h | h <;> rw [h] <;> exact ⟨by simp, by simp⟩

theorem countStarts_cons {n : Nat} (op : TROp n) (ops : List (TROp n))
    (u : Fin n) :
    countStarts (op :: ops) u
      = (if op = .start u then 1 else 0) + countStarts ops u := by
  unfold countStarts
  rw [List.countP_cons]
  by_cases h : op = .start u
  · simp [h, Nat.add_comm]
  · simp [h]

theorem countStarts_zero_of_not_ready {n : Nat} (G : Fin n → Finset (Fin n))
    (W : Nat) (s : TRState n) (ops : List (TROp n))
    (hvalid : ValidRun G W s ops) (u : Fin n) (h : s.status u ≠ .ready) :
    countStarts ops u = 0 := by
  induction ops generalizing s with
  | nil => rfl
  | cons op ops ih =>
    rw [ValidRun] at hvalid
    rw [countStarts_cons]
    have hop : ¬ op = .start u := by
      intro hop
      rw [hop] at hvalid
      exact h hvalid.1.1
    rw [if_neg hop, Nat.zero_add]
    exact ih _ hvalid.2 (applyOp_status_not_ready G s op u h)

theorem countStarts_le_one {n : Nat} (G : Fin n → Finset (Fin n)) (W : Nat)
    (s : TRState n) (ops : List (TROp n)) (hvalid : ValidRun G W s ops)
    (u : Fin n) : countStarts ops u ≤ 1 := by
  induction ops generalizing s with
  | nil => exact Nat.zero_le 1
  | cons op ops ih =>
    rw [ValidRun] at hvalid
    rw [countStarts_cons]
    by_cases hop : op = .start u
    · rw [if_pos hop]
      have hzero : countStarts ops u = 0 := by
        apply countStarts_zero_of_not_ready G W _ _ hvalid.2 u
        rw [hop]
        simp [applyOp, setStatus]
      rw [hzero]
    · rw [if_neg hop, Nat.zero_add]
      exact ih _ hvalid.2

theorem applyOp_ready_blocked_stays {n : Nat} (G : Fin n → Finset (Fin n))
    (W : Nat) (s : TRState n) (op : TROp n) (u : Fin n)
    (hen : enabledOp G W s op) (hne : op ≠ .start u)
    (h : s.status u = .ready ∨ s.status u = .blocked) :
    (applyOp G s op).status u = .ready
      ∨ (applyOp G s op).status u = .blocked := by
  cases op with
  | start t =>
    have hut : ¬ u = t := fun hut => hne (by rw [hut])
    rcases h with h | h
    · left
      simpa [applyOp, setStatus, hut] using h
    · right
      simpa [applyOp, setStatus, hut] using h
  | finish t r =>
    have hexec : s.status t = .executing := hen
    have hut : ¬ u = t := by
      intro hut
      rw [hut] at h
      rcases h with h | h <;> rw [h] at hexec <;> cases hexec
    cases r with
    | success =>
      rcases h with h | h
      · left
        simpa [applyOp, markTaskAsSuccess, hut] using h
      · right
        simpa [applyOp, markTaskAsSuccess, hut] using h
    | successWithWarning =>
      rcases h with h | h
      · left
        simpa [applyOp, markTaskAsSuccessWithWarning, hut] using h
      · right
        simpa [applyOp, markTaskAsSuccessWithWarning, hut] using h
    | skipped =>
      rcases h with h | h
      · left
        simpa [applyOp, markTaskAsSkipped, hut] using h
      · right
        simpa [applyOp, markTaskAsSkipped, hut] using h
    | failure =>
      show (markTaskAsFailed G s t).status u = .ready
          ∨ (markTaskAsFailed G s t).status u = .blocked
      unfold markTaskAsFailed
      rcases blockLoop_status G (setStatus s t .failure)
          (dependentsList G t) u with hb | ⟨_, hb⟩
      · rw [hb]
        rcases h with h | h
        · left
          simpa [setStatus, hut] using h
        · right
          simpa [setStatus, hut] using h
      · right
        exact hb

theorem not_started_status {n : Nat} (G : Fin n → Finset (Fin n)) (W : Nat)
    (s : TRState n) (ops : List (TROp n)) (hvalid : ValidRun G W s ops)
    (u : Fin n) (h0 : s.status u = .ready ∨ s.status u = .blocked)
    (hcount : countStarts ops u = 0) :
    (execRun G s ops).status u = .ready
      ∨ (execRun G s ops).status u = .blocked := by
  induction ops generalizing s with
  | nil => exact h0
  | cons op ops ih =>
    rw [ValidRun] at hvalid
    rw [countStarts_cons] at hcount
    have hop : op ≠ .start u := by
      intro hop
      rw [if_pos hop] at hcount
      omega
    rw [if_neg hop, Nat.zero_add] at hcount
    rw [execRun_cons]
    exact ih _ hvalid.2
      (applyOp_ready_blocked_stays G W s op u hvalid.1 hop h0) hcount

theorem execRun_append {n : Nat} (G : Fin n → Finset (Fin n)) (s : TRState n)
    (l1 l2 : List (TROp n)) :
    execRun G s (l1 ++ l2) = execRun G (execRun G s l1) l2 := by
  unfold execRun
  exact List.foldl_append _ _ _ _

theorem validRun_append {n : Nat} (G : Fin n → Finset (Fin n)) (W : Nat)
    (s : TRState n) (l1 l2 : List (TROp n)) :
    ValidRun G W s (l1 ++ l2)
      ↔ ValidRun G W s l1 ∧ ValidRun G W (execRun G s l1) l2 := by
  induction l1 generalizing s with
  | nil => simp [ValidRun, execRun]
  | cons op l1 ih =>
    rw [List.cons_append, ValidRun, ValidRun, ih, execRun_cons]
    tauto

theorem successful_stays_run {n : Nat} (G : Fin n → Finset (Fin n)) (W : Nat)
    (s : TRState n) (ops : List (TROp n)) (hvalid : ValidRun G W s ops)
    (v : Fin n) (h : successful (s.status v)) :
    (execRun G s ops).status v = s.status v :=
  terminal_stays_run G W s ops hvalid v (successful_not_ready_executing h)

theorem blocked_stays_run {n : Nat} (G : Fin n → Finset (Fin n)) (W : Nat)
    (s : TRState n) (ops : List (TROp n)) (hvalid : ValidRun G W s ops)
    (u : Fin n) (h : s.status u = .blocked) :
    (execRun G s ops).status u = .blocked := by
  rw [terminal_stays_run G W s ops hvalid u ⟨by rw [h]; simp, by rw [h]; simp⟩]
  exact h

theorem never_successful_of_final_failure {n : Nat}
    (G : Fin n → Finset (Fin n)) (W : Nat) (s : TRState n)
    (ops : List (TROp n)) (hvalid : ValidRun G W s ops) (t : Fin n)
    (hfail : (execRun G s ops).status t = .failure) :
    ∀ l1 l2, ops = l1 ++ l2 →
      ¬ successful ((execRun G s l1).status t) := by
  intro l1 l2 heq hsucc
  subst heq
  rw [validRun_append] at hvalid
  rw [execRun_append] at hfail
  rw [successful_stays_run G W _ l2 hvalid.2 t hsucc] at hfail
  rw [hfail] at hsucc
  rcases hsucc with h | h | h <;> cases h

theorem countStarts_zero_of_dep_never_successful {n : Nat}
    (G : Fin n → Finset (Fin n)) (W : Nat) (s : TRState n)
    (ops : List (TROp n)) (hvalid : ValidRun G W s ops)
    (hinv : SchedInv G s) (u v : Fin n) (hGv : v ∈ G u)
    (hnever : ∀ l1 l2, ops = l1 ++ l2 →
      ¬ successful ((execRun G s l1).status v)) :
    countStarts ops u = 0 := by
  induction ops generalizing s with
  | nil => rfl
  | cons op ops ih =>
    rw [ValidRun] at hvalid
    rw [countStarts_cons]
    have hnow : ¬ successful (s.status v) := hnever [] (op :: ops) rfl
    have hop : ¬ op = .start u := by
      intro hop
      rw [hop] at hvalid
      have hdeps : s.deps u = ∅ := hvalid.1.2.1
      have hmem := (hinv.deps_iff u v hGv).mpr hnow
      rw [hdeps] at hmem
      simp at hmem
    rw [if_neg hop, Nat.zero_add]
    exact ih _ hvalid.2 (schedInv_applyOp G W s op hvalid.1 hinv)
      (fun l1 l2 h => hnever (op :: l1) l2 (by rw [h, List.cons_append]))

theorem blockedFlips_formula {n : Nat} (G : Fin n → Finset (Fin n)) (W : Nat)
    (s : TRState n) (ops : List (TROp n)) (hvalid : ValidRun G W s ops)
    (u : Fin n) :
    blockedFlips G s ops u
      = if s.status u ≠ .blocked ∧ (execRun G s ops).status u = .blocked
        then 1 else 0 := by
  induction ops generalizing s with
  | nil =>
    rw [blockedFlips]
    rw [if_neg]
    rintro ⟨h1, h2⟩
    exact h1 h2
  | cons op ops ih =>
    rw [ValidRun] at hvalid
    rw [blockedFlips, ih _ hvalid.2, execRun_cons]
    by_cases hb : s.status u = .blocked
    · have hs2 : (applyOp G s op).status u = .blocked := by
        rw [applyOp_terminal_stays G W s op u hvalid.1
          ⟨by rw [hb]; simp, by rw [hb]; simp⟩]
        exact hb
      have hfinal : (execRun G (applyOp G s op) ops).status u = .blocked :=
        blocked_stays_run G W _ ops hvalid.2 u hs2
      simp [hb, hs2, hfinal]
    · by_cases hs2 : (applyOp G s op).status u = .blocked
      · have hfinal : (execRun G (applyOp G s op) ops).status u = .blocked :=
          blocked_stays_run G W _ ops hvalid.2 u hs2
        simp [hb, hs2, hfinal]
      · simp [hb, hs2]

/-- Transitive closure of started_deps: if the direct dependencies of u all
finished successfully in state s, so did all transitive ones. -/
theorem successful_of_depTrans {n : Nat} (G : Fin n → Finset (Fin n))
    (s : TRState n) (hinv : SchedInv G s) (u : Fin n)
    (hdir : ∀ d, d ∈ G u → successful (s.status d)) :
    ∀ d, depTrans G d u → successful (s.status d) := by
  intro d htr
  unfold depTrans at htr
  induction htr using Relation.TransGen.head_induction_on with
  | base h => exact hdir _ h
  | ih h1 h2 ih => exact hinv.started_deps _ (Or.inr ih) _ h1

theorem countStarts_append {n : Nat} (l1 l2 : List (TROp n)) (u : Fin n) :
    countStarts (l1 ++ l2) u = countStarts l1 u + countStarts l2 u :=
  List.countP_append _ _ _

theorem dep_never_successful_step {n : Nat} (G : Fin n → Finset (Fin n))
    (W : Nat) (inc0 : Fin n → Bool) (ops : List (TROp n))
    (hvalid : ValidRun G W (initState G inc0) ops) (u v : Fin n)
    (hGv : v ∈ G u)
    (hnever_v : ∀ l1 l2, ops = l1 ++ l2 →
      ¬ successful ((execRun G (initState G inc0) l1).status v)) :
    countStarts ops u = 0
      ∧ ∀ l1 l2, ops = l1 ++ l2 →
          ¬ successful ((execRun G (initState G inc0) l1).status u) := by
  have hzero : countStarts ops u = 0 :=
    countStarts_zero_of_dep_never_successful G W _ ops hvalid
      (schedInv_init G inc0) u v hGv hnever_v
  refine ⟨hzero, ?_⟩
  intro l1 l2 heq hsucc
  have hval1 : ValidRun G W (initState G inc0) l1 :=
    ((validRun_append G W _ l1 l2).mp (heq ▸ hvalid)).1
  have hcount1 : countStarts l1 u = 0 := by
    have := countStarts_append l1 l2 u
    rw [← heq, hzero] at this
    omega
  have hrb := not_started_status G W _ l1 hval1 u (Or.inl rfl) hcount1
  rcases hrb with h | h <;> rw [h] at hsucc <;>
    rcases hsucc with h2 | h2 | h2 <;> cases h2

theorem failed_dep_never_starts {n : Nat} (G : Fin n → Finset (Fin n))
    (W : Nat) (inc0 : Fin n → Bool) (ops : List (TROp n))
    (hvalid : ValidRun G W (initState G inc0) ops) (t u : Fin n)
    (htr : depTrans G t u)
    (hfail : (execRun G (initState G inc0) ops).status t = .failure) :
    countStarts ops u = 0
      ∧ ∀ l1 l2, ops = l1 ++ l2 →
          ¬ successful ((execRun G (initState G inc0) l1).status u) := by
  have hnt := never_successful_of_final_failure G W _ ops hvalid t hfail
  unfold depTrans at htr
  induction htr with
  | single h => exact dep_never_successful_step G W inc0 ops hvalid _ _ h hnt
  | tail htr2 h ih => exact dep_never_successful_step G W inc0 ops hvalid _ _ h ih.2

/-- C4: in every completed scheduler run (one whose final state has no Ready
or Executing task --- the source's end-of-run condition):
a task is started only when every one of its transitive dependencies has
already finished Success, SuccessWithWarning or Skipped; a task whose
transitive dependencies all end in those statuses is started exactly once;
and every transitive dependent of a task that ends in Failure ends the run
Blocked, is never started, and is flipped into Blocked exactly once. -/
theorem scheduler_run_correct {n : Nat} (G : Fin n → Finset (Fin n)) (W : Nat)
    (inc0 : Fin n → Bool) (ops : List (TROp n))
    (hvalid : ValidRun G W (initState G inc0) ops)
    (hdone : ∀ u, (execRun G (initState G inc0) ops).status u ≠ .ready
      ∧ (execRun G (initState G inc0) ops).status u ≠ .executing) :
    (∀ l1 u l2, ops = l1 ++ TROp.start u :: l2 →
        ∀ d, depTrans G d u →
          successful ((execRun G (initState G inc0) l1).status d))
      ∧ (∀ u, (∀ d, depTrans G d u →
            successful ((execRun G (initState G inc0) ops).status d)) →
          countStarts ops u = 1)
      ∧ (∀ u t, depTrans G t u →
          (execRun G (initState G inc0) ops).status t = .failure →
          (execRun G (initState G inc0) ops).status u = .blocked
            ∧ countStarts ops u = 0
            ∧ blockedFlips G (initState G inc0) ops u = 1) := by
  refine ⟨?_, ?_, ?_⟩
  · intro l1 u l2 heq d htr
    have hsplit := (validRun_append G W _ l1 (TROp.start u :: l2)).mp
      (heq ▸ hvalid)
    have hen : enabledOp G W (execRun G (initState G inc0) l1)
        (.start u) := by
      have h2 := hsplit.2
      rw [ValidRun] at h2
      exact h2.1
    have hinv1 : SchedInv G (execRun G (initState G inc0) l1) :=
      schedInv_execRun G W _ l1 hsplit.1 (schedInv_init G inc0)
    have hdeps : (execRun G (initState G inc0) l1).deps u = ∅ := hen.2.1
    apply successful_of_depTrans G _ hinv1 u ?_ d htr
    intro d2 hd2
    have hiff := hinv1.deps_iff u d2 hd2
    rw [hdeps] at hiff
    simpa using hiff
  · intro u hsucc
    have hle := countStarts_le_one G W _ ops hvalid u
    have hfinalinv : SchedInv G (execRun G (initState G inc0) ops) :=
      schedInv_execRun G W _ ops hvalid (schedInv_init G inc0)
    by_cases h0 : countStarts ops u = 0
    · exfalso
      have hrb := not_started_status G W _ ops hvalid u (Or.inl rfl) h0
      rcases hrb with h | h
      · exact (hdone u).1 h
      · obtain ⟨d, htr, hfail⟩ := hfinalinv.blocked_has_failed u h
        have hs := hsucc d htr
        rw [hfail] at hs
        rcases hs with h2 | h2 | h2 <;> cases h2
    · omega
  · intro u t htr hfail
    obtain ⟨hzero, _⟩ :=
      failed_dep_never_starts G W inc0 ops hvalid t u htr hfail
    have hrb := not_started_status G W _ ops hvalid u (Or.inl rfl) hzero
    have hblocked : (execRun G (initState G inc0) ops).status u
        = .blocked := by
      rcases hrb with h | h
      · exact absurd h (hdone u).1
      · exact h
    refine ⟨hblocked, hzero, ?_⟩
    rw [blockedFlips_formula G W _ ops hvalid u, if_pos]
    exact ⟨by simp [initState], hblocked⟩

instance enabledOpDecidable {n : Nat} (G : Fin n → Finset (Fin n)) (W : Nat)
    (s : TRState n) : (op : TROp n) → Decidable (enabledOp G W s op)
  | .start _ => inferInstanceAs (Decidable (_ ∧ _ ∧ _))
  | .finish _ _ => inferInstanceAs (Decidable (_ = _))

instance validRunDecidable {n : Nat} (G : Fin n → Finset (Fin n)) (W : Nat) :
    (s : TRState n) → (ops : List (TROp n)) → Decidable (ValidRun G W s ops)
  | _, [] => .isTrue trivial
  | s, op :: ops =>
    @instDecidableAnd _ _ (enabledOpDecidable G W s op)
      (validRunDecidable G W (applyOp G s op) ops)

/-- A two-task graph: task 1 depends on task 0. -/
def witnessG : Fin 2 → Finset (Fin 2) := fun t => if t = 1 then {0} else ∅

/-- A run of the two-task graph: build 0, then build 1, both succeeding. -/
def witnessOps : List (TROp 2) :=
  [.start 0, .finish 0 .success, .start 1, .finish 1 .success]

/-- C4 witness: on the concrete two-task run, task 1 (all of whose
transitive dependencies end successfully) is started exactly once. -/
theorem scheduler_run_correct_witness : countStarts witnessOps 1 = 1 :=
  (scheduler_run_correct witnessG 1 (fun _ => true) witnessOps
      (by decide) (by decide)).2.1 1
    (fun d _ => by fin_cases d <;> decide)

/-- C9: when a task completes with Success or SuccessWithWarning the
scheduler removes it from each dependent's dependency set and clears each
dependent's isIncrementalBuildAllowed flag; when it completes with Skipped
the scheduler removes it from each dependent's dependency set but leaves
every task's isIncrementalBuildAllowed flag unchanged. -/
theorem completion_frame_effects {n : Nat} (G : Fin n → Finset (Fin n))
    (s : TRState n) (t : Fin n) :
    (∀ u, u ∈ dependents G t →
        (markTaskAsSuccess G s t).deps u = (s.deps u).erase t
          ∧ (markTaskAsSuccess G s t).inc u = false
          ∧ (markTaskAsSuccessWithWarning G s t).deps u = (s.deps u).erase t
          ∧ (markTaskAsSuccessWithWarning G s t).inc u = false
          ∧ (markTaskAsSkipped G s t).deps u = (s.deps u).erase t)
      ∧ (∀ u, u ∉ dependents G t →
          (markTaskAsSuccess G s t).deps u = s.deps u
            ∧ (markTaskAsSuccess G s t).inc u = s.inc u
            ∧ (markTaskAsSkipped G s t).deps u = s.deps u)
      ∧ (∀ u, (markTaskAsSkipped G s t).inc u = s.inc u) := by
  refine ⟨fun u hu => ?_, fun u hu => ?_, fun u => rfl⟩
  · simp [markTaskAsSuccess, markTaskAsSuccessWithWarning,
      markTaskAsSkipped, hu]
  · simp [markTaskAsSuccess, markTaskAsSkipped, hu]

/-- C9 witness: in the two-task graph, completing task 0 with Success clears
the dependent task 1's incremental flag, while completing it with Skipped
leaves the flag set. -/
theorem completion_frame_effects_witness :
    (markTaskAsSuccess witnessG (initState witnessG (fun _ => true)) 0).inc 1
        = false
      ∧ (markTaskAsSkipped witnessG
          (initState witnessG (fun _ => true)) 0).inc 1 = true :=
  ⟨((completion_frame_effects witnessG
        (initState witnessG (fun _ => true)) 0).1 1 (by decide)).2.1,
    ((completion_frame_effects witnessG
        (initState witnessG (fun _ => true)) 0).2.2 1)⟩

/-- C10: under any enabled scheduler event, a task whose status is not
Ready never returns to Ready; a task becomes Blocked only from Ready; and a
task that is already Blocked stays Blocked --- so a task that has started,
completed or been blocked is never re-marked Blocked by later failures. -/
theorem status_monotone {n : Nat} (G : Fin n → Finset (Fin n)) (W : Nat)
    (s : TRState n) (op : TROp n) (hen : enabledOp G W s op) (u : Fin n) :
    (s.status u ≠ .ready → (applyOp G s op).status u ≠ .ready)
      ∧ ((applyOp G s op).status u = .blocked →
          s.status u = .blocked ∨ s.status u = .ready)
      ∧ (s.status u = .blocked → (applyOp G s op).status u = .blocked) := by
  refine ⟨applyOp_status_not_ready G s op u,
    applyOp_blocked_source G s op u, ?_⟩
  intro h
  rw [applyOp_terminal_stays G W s op u hen ⟨by rw [h]; simp, by rw [h]; simp⟩]
  exact h

/-- The two-task state after task 0 has started. -/
def witnessMid : TRState 2 :=
  execRun witnessG (initState witnessG (fun _ => true)) [.start 0]

/-- C10 witness: completing task 0 with Success does not move the executing
task 0 back to Ready. -/
theorem status_monotone_witness :
    (applyOp witnessG witnessMid (.finish 0 .success)).status 0 ≠ .ready :=
  (status_monotone witnessG 1 witnessMid (.finish 0 .success)
      (by decide) 0).1 (by decide)

/- ===================================================================
   C7: ShrinkwrapFile.hasCompatibleDependency
   Source: apps/rush-lib/src/cli/utilities/ShrinkwrapFile.ts.

   The npm-package-arg classification of a specifier and the semver
   range check are external libraries; they enter the model as oracle
   functions.  npm-package-arg's result.rawSpec is the specifier string
   that was passed in, so the warned-specs set stores the version range
   itself.
   =================================================================== -/

/-- A shrinkwrap dependency entry (IShrinkwrapDependencyJson): its version
and its optional nested dependencies map. -/
inductive ShrinkwrapDep where
  | mk (version : String)
       (dependencies : Option (List (String × ShrinkwrapDep)))

def ShrinkwrapDep.version : ShrinkwrapDep → String
  | .mk v _ => v

def ShrinkwrapDep.dependencies :
    ShrinkwrapDep → Option (List (String × ShrinkwrapDep))
  | .mk _ d => d

/-- The root of the shrinkwrap file (IShrinkwrapJson): the normalized
dependencies map (the constructor replaces a missing map by an empty
one). -/
structure ShrinkwrapJson where
  dependencies : List (String × ShrinkwrapDep)

/-- Embeds the static helper `ShrinkwrapFile.tryGetValue` (hasOwnProperty
check plus indexing). -/
def tryGetValue {α : Type} (dictionary : List (String × α)) (key : String) :
    Option α :=
  (dictionary.find? (fun p => p.1 == key)).map (·.2)

/-- The classification npm-package-arg gives a specifier: a semver version,
a semver range, or anything else (git, tarball, tag, file, ...). -/
inductive NpmSpecType where
  | version
  | range
  | other
deriving DecidableEq, Repr

/-- The entry the query resolves: first under the temp project's
dependencies when tempProjectName is given (and nonempty --- JS truthiness),
falling back to the root dependencies map only when nothing was found
there. -/
def resolvedEntry (sw : ShrinkwrapJson) (dependencyName : String)
    (tempProjectName : Option String) : Option ShrinkwrapDep :=
  let fromTemp : Option ShrinkwrapDep :=
    match tempProjectName with
    | some tempName =>
      if tempName == "" then none
      else
        match tryGetValue sw.dependencies tempName with
        | some tempDependency =>
          match tempDependency.dependencies with
          | some subDeps => tryGetValue subDeps dependencyName
          | none => none
        | none => none
    | none => none
  match fromTemp with
  | some d => some d
  | none => tryGetValue sw.dependencies dependencyName

/-- The observable outcome of one hasCompatibleDependency call: the boolean
answer, whether the one-time warning was printed by this call, and the
updated set of already-warned raw specs. -/
structure HasCompatResult where
  result : Bool
  warnedNow : Bool
  alreadyWarnedSpecs : List String
deriving DecidableEq, Repr

/-- Embeds `hasCompatibleDependency(dependencyName, versionRange,
tempProjectName)`.  `resolveType` stands for npm-package-arg's
classification and `satisfies` for semver.satisfies; both are external
libraries.  A missing entry answers false; a semver specifier answers with
the range check on the found entry's version; any other specifier is
assumed compatible, warning only the first time the raw spec is seen. -/
def hasCompatibleDependency
    (resolveType : String → String → NpmSpecType)
    (satisfies : String → String → Bool)
    (sw : ShrinkwrapJson) (alreadyWarnedSpecs : List String)
    (dependencyName versionRange : String)
    (tempProjectName : Option String) : HasCompatResult :=
  match resolvedEntry sw dependencyName tempProjectName with
  | none =>
    { result := false, warnedNow := false,
      alreadyWarnedSpecs := alreadyWarnedSpecs }
  | some dependencyJson =>
    match resolveType dependencyName versionRange with
    | .version =>
      { result := satisfies dependencyJson.version versionRange,
        warnedNow := false, alreadyWarnedSpecs := alreadyWarnedSpecs }
    | .range =>
      { result := satisfies dependencyJson.version versionRange,
        warnedNow := false, alreadyWarnedSpecs := alreadyWarnedSpecs }
    | .other =>
      if versionRange ∈ alreadyWarnedSpecs then
        { result := true, warnedNow := false,
          alreadyWarnedSpecs := alreadyWarnedSpecs }
      else
        { result := true, warnedNow := true,
          alreadyWarnedSpecs := versionRange :: alreadyWarnedSpecs }

/-- C7: hasCompatibleDependency resolves the entry temp-project first with
root fallback only on a miss; answers false when nothing is found; answers
the semver range check for version and range specifiers; and passes any
other specifier through as compatible, warning exactly the first time each
raw spec is seen. -/
theorem hasCompatibleDependency_spec
    (resolveType : String → String → NpmSpecType)
    (satisfies : String → String → Bool)
    (sw : ShrinkwrapJson) (warnedSet : List String)
    (dependencyName versionRange : String)
    (tempProjectName : Option String) :
    (∀ tempName, tempProjectName = some tempName → tempName ≠ "" →
        (∀ e tempDependency subDeps,
            tryGetValue sw.dependencies tempName = some tempDependency →
            tempDependency.dependencies = some subDeps →
            tryGetValue subDeps dependencyName = some e →
            resolvedEntry sw dependencyName tempProjectName = some e)
          ∧ (∀ tempDependency subDeps,
              tryGetValue sw.dependencies tempName = some tempDependency →
              tempDependency.dependencies = some subDeps →
              tryGetValue subDeps dependencyName = none →
              resolvedEntry sw dependencyName tempProjectName
                = tryGetValue sw.dependencies dependencyName))
      ∧ (tempProjectName = none →
          resolvedEntry sw dependencyName tempProjectName
            = tryGetValue sw.dependencies dependencyName)
      ∧ (resolvedEntry sw dependencyName tempProjectName = none →
          hasCompatibleDependency resolveType satisfies sw warnedSet
              dependencyName versionRange tempProjectName
            = { result := false, warnedNow := false,
                alreadyWarnedSpecs := warnedSet })
      ∧ (∀ e, resolvedEntry sw dependencyName tempProjectName = some e →
          (resolveType dependencyName versionRange = .version
              ∨ resolveType dependencyName versionRange = .range) →
          (hasCompatibleDependency resolveType satisfies sw warnedSet
              dependencyName versionRange tempProjectName).result
            = satisfies e.version versionRange)
      ∧ (∀ e, resolvedEntry sw dependencyName tempProjectName = some e →
          resolveType dependencyName versionRange = .other →
          (hasCompatibleDependency resolveType satisfies sw warnedSet
              dependencyName versionRange tempProjectName).result = true
            ∧ ((hasCompatibleDependency resolveType satisfies sw warnedSet
                dependencyName versionRange tempProjectName).warnedNow
              ↔ versionRange ∉ warnedSet)) := by
  refine ⟨?_, ?_, ?_, ?_, ?_⟩
  · intro tempName htemp hne
    have hbeq : (tempName == "") = false := by
      simpa using hne
    constructor
    · intro e tempDependency subDeps h1 h2 h3
      unfold resolvedEntry
      rw [htemp]
      simp [hbeq, h1, h2, h3]
    · intro tempDependency subDeps h1 h2 h3
      unfold resolvedEntry
      rw [htemp]
      simp [hbeq, h1, h2, h3]
  · intro h
    unfold resolvedEntry
    rw [h]
  · intro h
    unfold hasCompatibleDependency
    rw [h]
  · intro e he hsem
    unfold hasCompatibleDependency
    rw [he]
    rcases hsem with h | h <;> rw [h]
  · intro e he hother
    unfold hasCompatibleDependency
    rw [he, hother]
    by_cases hmem : versionRange ∈ warnedSet
    · rw [if_pos hmem]
      simpa using hmem
    · rw [if_neg hmem]
      simpa using hmem

/-- A concrete shrinkwrap document: the doc comment's example, where the
temp project holds lib-b at 1.0.0 while the root holds lib-b at 2.0.0. -/
def exampleShrinkwrap : ShrinkwrapJson :=
  { dependencies :=
      [("@rush-temp/temp-project",
        .mk "0.0.0" (some [("lib-b", .mk "1.0.0" none)])),
       ("lib-b", .mk "2.0.0" none)] }

/-- C7 witness: on the source doc comment's example the temp-scoped lookup
finds lib-b at 1.0.0 (not the root's 2.0.0), and the query answers exactly
the range check on that version. -/
theorem hasCompatibleDependency_spec_witness :
    (hasCompatibleDependency (fun _ _ => .range) (fun v r => v == r)
        exampleShrinkwrap [] "lib-b" "1.0.0"
        (some "@rush-temp/temp-project")).result = ("1.0.0" == "1.0.0") :=
  ((hasCompatibleDependency_spec (fun _ _ => .range) (fun v r => v == r)
      exampleShrinkwrap [] "lib-b" "1.0.0"
      (some "@rush-temp/temp-project")).2.2.2.1
    (.mk "1.0.0" none) (by rfl) (Or.inr rfl))

/- ===================================================================
   C8: InstallManager.collectImplicitlyPinnedVersions
   Source: apps/rush-lib/src/cli/utilities/InstallManager.ts
   (collectImplicitlyPinnedVersions, _addDependencyToMap,
   _addDependenciesToMap).  semver.satisfies is again an oracle.
   =================================================================== -/

/-- The slice of a rush project the install planner reads. -/
structure RushProject where
  packageName : String
  version : String
  dependencies : Option (List (String × String))
  devDependencies : Option (List (String × String))
  optionalDependencies : Option (List (String × String))
  cyclicDependencyProjects : List String

/-- The workspace: the list of configured projects. -/
structure RushConfigurationModel where
  projects : List RushProject

/-- Embeds `rushConfiguration.getProjectByName`. -/
def getProjectByName (cfg : RushConfigurationModel) (name : String) :
    Option RushProject :=
  cfg.projects.find? (fun p => p.packageName == name)

/-- JS `Set.add` on an insertion-ordered duplicate-free list. -/
def setAdd (versions : List String) (v : String) : List String :=
  if v ∈ versions then versions else versions ++ [v]

/-- Embeds `InstallManager._addDependencyToMap`: create the entry's set when
missing, then add the version to it (a JS Map keeps one entry per key, so
this updates the entry in place or appends a fresh one at the end). -/
def mapAddVersion : List (String × List String) → String → String →
    List (String × List String)
  | [], dependency, version => [(dependency, [version])]
  | p :: ps, dependency, version =>
    if p.1 == dependency then (p.1, setAdd p.2 version) :: ps
    else p :: mapAddVersion ps dependency version

/-- The guard of `_addDependenciesToMap`: a declared dependency counts as
external iff it is not a workspace project, or it is in the consuming
project's cyclic exemptions, or the local project's version does not
satisfy the declared range. -/
def isExternalDependency (cfg : RushConfigurationModel)
    (satisfies : String → String → Bool) (cyclicDeps : List String)
    (dependency version : String) : Bool :=
  match getProjectByName cfg dependency with
  | none => true
  | some localProject =>
    cyclicDeps.contains dependency || !(satisfies localProject.version version)

/-- Embeds `InstallManager._addDependenciesToMap`. -/
def addDependenciesToMap (cfg : RushConfigurationModel)
    (satisfies : String → String → Bool)
    (directDependencies : List (String × List String))
    (cyclicDeps : List String) (deps : Option (List (String × String))) :
    List (String × List String) :=
  match deps with
  | none => directDependencies
  | some deps =>
    deps.foldl (fun m p =>
      if isExternalDependency cfg satisfies cyclicDeps p.1 p.2 then
        mapAddVersion m p.1 p.2
      else m) directDependencies

/-- Embeds `InstallManager.collectImplicitlyPinnedVersions`: accumulate the
set of ranges per external dependency name across every project's
dependencies and devDependencies, then keep exactly the names with a single
distinct range. -/
def collectImplicitlyPinnedVersions (cfg : RushConfigurationModel)
    (satisfies : String → String → Bool) : List (String × String) :=
  let directDependencies := cfg.projects.foldl (fun m project =>
    addDependenciesToMap cfg satisfies
      (addDependenciesToMap cfg satisfies m
        project.cyclicDependencyProjects project.dependencies)
      project.cyclicDependencyProjects project.devDependencies) []
  directDependencies.foldl (fun implicitlyPinned p =>
    match p.2 with
    | [version] => implicitlyPinned ++ [(p.1, version)]
    | _ => implicitlyPinned) []

/-- An optional JS object viewed as a pair list. -/
def optPairs : Option (List (String × String)) → List (String × String)
  | none => []
  | some l => l

/-- Claim side: the external (name, range) occurrences across all projects,
dependencies first, then devDependencies, in workspace order. -/
def externalPairs (cfg : RushConfigurationModel)
    (satisfies : String → String → Bool) : List (String × String) :=
  cfg.projects.flatMap (fun project =>
    (optPairs project.dependencies ++ optPairs project.devDependencies).filter
      (fun p => isExternalDependency cfg satisfies
        project.cyclicDependencyProjects p.1 p.2))

/-- Claim side: the distinct-or-not list of ranges declared externally for
one dependency name. -/
def externalRangesFor (cfg : RushConfigurationModel)
    (satisfies : String → String → Bool) (name : String) : List String :=
  ((externalPairs cfg satisfies).filter (fun p => p.1 == name)).map (·.2)

theorem tryGetValue_cons {α : Type} (p : String × α) (ps : List (String × α))
    (k : String) :
    tryGetValue (p :: ps) k
      = if p.1 == k then some p.2 else tryGetValue ps k := by
  unfold tryGetValue
  rcases h : p.1 == k <;> simp [List.find?_cons, h]

theorem tryGetValue_isSome_iff_find? {α : Type} (l : List (String × α))
    (k : String) :
    (tryGetValue l k).isSome = (l.find? (fun p => p.1 == k)).isSome := by
  unfold tryGetValue
  rcases h : l.find? (fun p => p.1 == k) <;> simp [h]

/-- Lookup after _addDependencyToMap: the addressed entry gains the version
(set semantics), every other entry is untouched. -/
theorem tryGetValue_mapAddVersion (m : List (String × List String))
    (dep v k : String) :
    tryGetValue (mapAddVersion m dep v) k
      = if k == dep then some (setAdd ((tryGetValue m dep).getD []) v)
        else tryGetValue m k := by
  induction m with
  | nil =>
    by_cases hk : k = dep
    · simp [mapAddVersion, tryGetValue_cons, tryGetValue, hk, setAdd]
    · have hdk : ¬ dep = k := fun h => hk h.symm
      simp [mapAddVersion, tryGetValue_cons, tryGetValue, hk, hdk, setAdd]
  | cons p ps ih =>
    by_cases hpd : p.1 = dep
    · by_cases hpk : p.1 = k
      · have hk : k = dep := hpk.symm.trans hpd
        simp [mapAddVersion, tryGetValue_cons, hpd, hpk, hk]
      · have hk : ¬ k = dep := fun h => hpk (hpd.trans h.symm)
        have hdk : ¬ dep = k := fun h => hpk (hpd.trans h)
        simp [mapAddVersion, tryGetValue_cons, hpd, hpk, hk, hdk]
    · by_cases hpk : p.1 = k
      · have hk : ¬ k = dep := fun h => hpd (hpk.trans h)
        simp [mapAddVersion, tryGetValue_cons, hpd, hpk, hk]
      · simp [mapAddVersion, tryGetValue_cons, hpd, hpk, ih]

theorem foldl_guarded_eq_foldl_filter {α β : Type} (c : β → Bool)
    (f : α → β → α) (ps : List β) (m : α) :
    ps.foldl (fun m p => if c p then f m p else m) m
      = (ps.filter c).foldl f m := by
  induction ps generalizing m with
  | nil => rfl
  | cons p ps ih =>
    rcases h : c p with _ | _ <;> simp [List.filter_cons, h, ih]

/-- The nested per-project accumulation of collectImplicitlyPinnedVersions
equals one flat fold of _addDependencyToMap over the external (name, range)
occurrence list. -/
theorem directDependencies_eq_flat (cfg : RushConfigurationModel)
    (satisfies : String → String → Bool) :
    cfg.projects.foldl (fun m project =>
        addDependenciesToMap cfg satisfies
          (addDependenciesToMap cfg satisfies m
            project.cyclicDependencyProjects project.dependencies)
          project.cyclicDependencyProjects project.devDependencies) []
      = (externalPairs cfg satisfies).foldl
          (fun m p => mapAddVersion m p.1 p.2) [] := by
  unfold externalPairs
  generalize cfg.projects = projects
  rw [show ([] : List (String × List String))
      = ([] : List (String × List String)) from rfl]
  generalize ([] : List (String × List String)) = m0
  induction projects generalizing m0 with
  | nil => rfl
  | cons project rest ih =>
    rw [List.foldl_cons, List.flatMap_cons, List.foldl_append, ← ih]
    congr 1
    have hone : ∀ (m : List (String × List String))
        (deps : Option (List (String × String))),
        addDependenciesToMap cfg satisfies m
            project.cyclicDependencyProjects deps
          = ((optPairs deps).filter (fun p => isExternalDependency cfg
              satisfies project.cyclicDependencyProjects p.1 p.2)).foldl
              (fun m p => mapAddVersion m p.1 p.2) m := by
      intro m deps
      rcases deps with _ | deps
      · rfl
      · exact foldl_guarded_eq_foldl_filter _ _ deps m
    rw [hone, hone, ← List.foldl_append, ← List.filter_append]

theorem tryGetValue_foldl_mapAdd (pairs : List (String × String))
    (m : List (String × List String)) (k : String) :
    tryGetValue (pairs.foldl (fun m p => mapAddVersion m p.1 p.2) m) k
      = ((pairs.filter (fun p => p.1 == k)).map (·.2)).foldl
          (fun acc v => some (setAdd (acc.getD []) v)) (tryGetValue m k) := by
  induction pairs generalizing m with
  | nil => rfl
  | cons p ps ih =>
    rw [List.foldl_cons, ih, List.filter_cons]
    by_cases hpk : p.1 = k
    · have hbeq : (p.1 == k) = true := by simpa using hpk
      have hbeq2 : (k == p.1) = true := by simpa using hpk.symm
      simp only [hbeq, if_true, List.map_cons, List.foldl_cons]
      congr 1
      rw [tryGetValue_mapAddVersion, if_pos hbeq2, hpk]
    · have hbeq : (p.1 == k) = false := by simpa using hpk
      have hbeq2 : (k == p.1) = false := by
        simpa using fun h : k = p.1 => hpk h.symm
      simp only [hbeq, Bool.false_eq_true, if_false]
      congr 1
      rw [tryGetValue_mapAddVersion, hbeq2]
      simp

theorem foldl_setAddStep_some (vs : List String) (acc : List String) :
    vs.foldl (fun a v => some (setAdd (a.getD []) v)) (some acc)
      = some (vs.foldl setAdd acc) := by
  induction vs generalizing acc with
  | nil => rfl
  | cons v vs ih => simp only [List.foldl_cons, Option.getD_some, ih]

theorem foldl_setAddStep_none (vs : List String) :
    vs.foldl (fun a v => some (setAdd (a.getD []) v)) none
      = match vs with
        | [] => none
        | v :: rest => some ((v :: rest).foldl setAdd []) := by
  rcases vs with _ | ⟨v, rest⟩
  · rfl
  · simp only [List.foldl_cons, Option.getD_none]
    exact foldl_setAddStep_some rest (setAdd [] v)

theorem mem_setAdd (l : List String) (v x : String) :
    x ∈ setAdd l v ↔ x ∈ l ∨ x = v := by
  unfold setAdd
  split
  · next h =>
    constructor
    · exact Or.inl
    · rintro (hx | rfl)
      · exact hx
      · exact h
  · simp

theorem mem_foldl_setAdd (vs : List String) (acc : List String) (x : String) :
    x ∈ vs.foldl setAdd acc ↔ x ∈ acc ∨ x ∈ vs := by
  induction vs generalizing acc with
  | nil => simp
  | cons v vs ih =>
    rw [List.foldl_cons, ih, mem_setAdd]
    simp [or_assoc]

theorem foldl_setAdd_const (r : String) (vs : List String)
    (h : ∀ v ∈ vs, v = r) : vs.foldl setAdd [r] = [r] := by
  induction vs with
  | nil => rfl
  | cons v vs ih =>
    have hv : v = r := h v (List.mem_cons_self v vs)
    rw [List.foldl_cons, hv]
    have : setAdd [r] r = [r] := by simp [setAdd]
    rw [this]
    exact ih (fun v hv2 => h v (List.mem_cons_of_mem _ hv2))

theorem foldl_setAdd_singleton_iff (vs : List String) (r : String) :
    vs.foldl setAdd [] = [r] ↔ (r ∈ vs ∧ ∀ v ∈ vs, v = r) := by
  constructor
  · intro h
    constructor
    · have : r ∈ vs.foldl setAdd [] := by
        rw [h]
        exact List.mem_singleton_self r
      rcases (mem_foldl_setAdd vs [] r).mp this with h2 | h2
      · cases h2
      · exact h2
    · intro v hv
      have : v ∈ vs.foldl setAdd [] := (mem_foldl_setAdd vs [] v).mpr (Or.inr hv)
      rw [h] at this
      simpa using this
  · rintro ⟨hr, hall⟩
    rcases vs with _ | ⟨v, rest⟩
    · cases hr
    · rw [List.foldl_cons]
      have hv : v = r := hall v (List.mem_cons_self v rest)
      have h0 : setAdd [] v = [r] := by simp [setAdd, hv]
      rw [h0]
      exact foldl_setAdd_const r rest
        (fun v hv2 => hall v (List.mem_cons_of_mem _ hv2))

/-- The key list of a JS object or map. -/
def keysOf {α : Type} (m : List (String × α)) : List String := m.map Prod.fst

theorem keysOf_cons {α : Type} (p : String × α) (ps : List (String × α)) :
    keysOf (p :: ps) = p.1 :: keysOf ps := rfl

theorem mem_keysOf_mapAddVersion (m : List (String × List String))
    (dep v x : String) :
    x ∈ keysOf (mapAddVersion m dep v) ↔ x ∈ keysOf m ∨ x = dep := by
  induction m with
  | nil => simp [mapAddVersion, keysOf]
  | cons p ps ih =>
    by_cases hpd : p.1 = dep
    · rw [mapAddVersion, if_pos (by simpa using hpd)]
      rw [keysOf_cons, keysOf_cons]
      simp only [List.mem_cons, ih]
      constructor
      · rintro (h | h)
        · exact Or.inl (Or.inl h)
        · exact Or.inl (Or.inr h)
      · rintro ((h | h) | h)
        · exact Or.inl h
        · exact Or.inr h
        · exact Or.inl (h ▸ hpd.symm)
    · rw [mapAddVersion, if_neg (by simpa using hpd)]
      rw [keysOf_cons, keysOf_cons]
      simp only [List.mem_cons, ih]
      tauto

theorem nodupKeys_mapAddVersion (m : List (String × List String))
    (dep v : String) (h : (keysOf m).Nodup) :
    (keysOf (mapAddVersion m dep v)).Nodup := by
  induction m with
  | nil => simp [mapAddVersion, keysOf]
  | cons p ps ih =>
    by_cases hpd : p.1 = dep
    · rw [mapAddVersion, if_pos (by simpa using hpd)]
      rw [keysOf_cons]
      rw [keysOf_cons] at h
      exact h
    · rw [mapAddVersion, if_neg (by simpa using hpd)]
      rw [keysOf_cons]
      rw [keysOf_cons, List.nodup_cons] at h
      rw [List.nodup_cons]
      refine ⟨?_, ih h.2⟩
      intro hmem
      rcases (mem_keysOf_mapAddVersion ps dep v p.1).mp hmem with h2 | h2
      · exact h.1 h2
      · exact hpd h2

theorem nodupKeys_foldl_mapAdd (pairs : List (String × String))
    (m : List (String × List String)) (h : (keysOf m).Nodup) :
    (keysOf (pairs.foldl (fun m p => mapAddVersion m p.1 p.2) m)).Nodup := by
  induction pairs generalizing m with
  | nil => exact h
  | cons p ps ih =>
    rw [List.foldl_cons]
    exact ih _ (nodupKeys_mapAddVersion m p.1 p.2 h)

theorem implicitFold_eq_filterMap (m : List (String × List String)) :
    m.foldl (fun acc p => match p.2 with
        | [version] => acc ++ [(p.1, version)]
        | _ => acc) []
      = m.filterMap (fun p => match p.2 with
          | [version] => some (p.1, version)
          | _ => none) := by
  have hgen : ∀ (acc : List (String × String)),
      m.foldl (fun acc p => match p.2 with
        | [version] => acc ++ [(p.1, version)]
        | _ => acc) acc
        = acc ++ m.filterMap (fun p => match p.2 with
            | [version] => some (p.1, version)
            | _ => none) := by
    induction m with
    | nil => intro acc; simp
    | cons p ps ih =>
      intro acc
      rcases hp : p.2 with _ | ⟨v, rest⟩
      · simp only [List.foldl_cons, List.filterMap_cons, hp]
        exact ih acc
      · rcases rest with _ | ⟨w, rest2⟩
        · simp only [List.foldl_cons, List.filterMap_cons, hp]
          rw [ih]
          simp
        · simp only [List.foldl_cons, List.filterMap_cons, hp]
          exact ih acc
  simpa using hgen []

theorem tryGetValue_eq_none_of_not_mem_keys {α : Type}
    (l : List (String × α)) (k : String) (h : k ∉ keysOf l) :
    tryGetValue l k = none := by
  induction l with
  | nil => rfl
  | cons p ps ih =>
    rw [keysOf_cons, List.mem_cons] at h
    push_neg at h
    rw [tryGetValue_cons, if_neg (by simpa using fun h2 : p.1 = k => h.1 h2.symm)]
    exact ih h.2

theorem mem_keysOf_filterMap_singleton (ps : List (String × List String))
    (x : String) :
    x ∈ keysOf (ps.filterMap (fun p => match p.2 with
        | [version] => some (p.1, version)
        | _ => none)) → x ∈ keysOf ps := by
  induction ps with
  | nil => simp [keysOf]
  | cons p ps ih =>
    rw [List.filterMap_cons]
    rcases hp : p.2 with _ | ⟨v, rest⟩
    · simp only [hp]
      intro h
      rw [keysOf_cons, List.mem_cons]
      exact Or.inr (ih h)
    · rcases rest with _ | ⟨w, rest2⟩
      · simp only [hp]
        rw [keysOf_cons, keysOf_cons, List.mem_cons, List.mem_cons]
        rintro (h | h)
        · exact Or.inl h
        · exact Or.inr (ih h)
      · simp only [hp]
        intro h
        rw [keysOf_cons, List.mem_cons]
        exact Or.inr (ih h)

theorem tryGetValue_filterMap_singleton (m : List (String × List String))
    (hnd : (keysOf m).Nodup) (k : String) :
    tryGetValue (m.filterMap (fun p => match p.2 with
        | [version] => some (p.1, version)
        | _ => none)) k
      = match tryGetValue m k with
        | some [v] => some v
        | _ => none := by
  induction m with
  | nil => rfl
  | cons p ps ih =>
    rw [keysOf_cons, List.nodup_cons] at hnd
    rw [List.filterMap_cons, tryGetValue_cons]
    by_cases hpk : p.1 = k
    · have hknotin : k ∉ keysOf ps := hpk ▸ hnd.1
      have hnone : tryGetValue (ps.filterMap (fun p => match p.2 with
          | [version] => some (p.1, version)
          | _ => none)) k = none := by
        apply tryGetValue_eq_none_of_not_mem_keys
        intro hmem
        exact hknotin (mem_keysOf_filterMap_singleton ps k hmem)
      rw [if_pos (by simpa using hpk)]
      rcases hp : p.2 with _ | ⟨v, rest⟩
      · simp only [hp]
        exact hnone
      · rcases rest with _ | ⟨w, rest2⟩
        · simp only [hp]
          rw [tryGetValue_cons, if_pos (by simpa using hpk)]
        · simp only [hp]
          exact hnone
    · rw [if_neg (by simpa using hpk)]
      rcases hp : p.2 with _ | ⟨v, rest⟩
      · simp only [hp]
        exact ih hnd.2
      · rcases rest with _ | ⟨w, rest2⟩
        · simp only [hp]
          rw [tryGetValue_cons, if_neg (by simpa using hpk)]
          exact ih hnd.2
        · simp only [hp]
          exact ih hnd.2

theorem singleton_match_eq_some (L : List String) (r : String) :
    (match some L with
      | some [v] => some v
      | _ => (none : Option String)) = some r ↔ L = [r] := by
  rcases L with _ | ⟨x, rest⟩
  · simp
  · rcases rest with _ | ⟨y, rest2⟩
    · simp
    · simp

/-- C8: collectImplicitlyPinnedVersions contains an entry name to range
exactly when, across all projects' dependencies and devDependencies,
exactly one distinct range is declared for that name among the occurrences
that count as external (the name is not a workspace project, or it is in
the consuming project's cyclic exemptions, or the local version does not
satisfy the declared range). -/
theorem collectImplicitlyPinned_iff (cfg : RushConfigurationModel)
    (satisfies : String → String → Bool) (name r : String) :
    tryGetValue (collectImplicitlyPinnedVersions cfg satisfies) name = some r
      ↔ (r ∈ externalRangesFor cfg satisfies name
          ∧ ∀ v ∈ externalRangesFor cfg satisfies name, v = r) := by
  have hnodup : (keysOf ((externalPairs cfg satisfies).foldl
      (fun m p => mapAddVersion m p.1 p.2) [])).Nodup :=
    nodupKeys_foldl_mapAdd _ [] (by simp [keysOf])
  unfold collectImplicitlyPinnedVersions
  rw [directDependencies_eq_flat, implicitFold_eq_filterMap,
    tryGetValue_filterMap_singleton _ hnodup name,
    tryGetValue_foldl_mapAdd]
  show (match (externalRangesFor cfg satisfies name).foldl
      (fun acc v => some (setAdd (acc.getD []) v)) (tryGetValue [] name) with
    | some [v] => some v
    | _ => none) = some r ↔ _
  have hinit : tryGetValue ([] : List (String × List String)) name
      = none := rfl
  rw [hinit, foldl_setAddStep_none]
  rcases hvals : externalRangesFor cfg satisfies name with _ | ⟨v, rest⟩
  · simp
  · rw [singleton_match_eq_some, foldl_setAdd_singleton_iff]

/-- A two-project workspace both declaring react at the same range. -/
def witnessCfg : RushConfigurationModel :=
  { projects :=
      [{ packageName := "project-a", version := "1.0.0",
         dependencies := some [("react", "^15.0.0")],
         devDependencies := none, optionalDependencies := none,
         cyclicDependencyProjects := [] },
       { packageName := "project-b", version := "1.0.0",
         dependencies := some [("react", "^15.0.0")],
         devDependencies := none, optionalDependencies := none,
         cyclicDependencyProjects := [] }] }

/-- C8 witness: with both projects declaring react at a single range, react
is implicitly pinned to that range. -/
theorem collectImplicitlyPinned_iff_witness :
    tryGetValue (collectImplicitlyPinnedVersions witnessCfg (fun _ _ => true))
        "react" = some "^15.0.0" :=
  (collectImplicitlyPinned_iff witnessCfg (fun _ _ => true)
      "react" "^15.0.0").mpr (by constructor <;> decide)

/- ===================================================================
   C5: InstallManager.createTempModulesAndCheckShrinkwrap --- per-project
   stub manifest generation (lines 306-377 of InstallManager.ts).
   =================================================================== -/

/-- The stub manifest (IRushTempPackageJson) fields the claim concerns. -/
structure RushTempPackageJson where
  dependencies : List (String × String)
  optionalDependencies : Option (List (String × String))
  rushDependencies : Option (List (String × String))
deriving Repr

/-- JS `object[name] = value`: overwrite the existing entry in place or
append a fresh one. -/
def jsSetKey : List (String × String) → String → String →
    List (String × String)
  | [], k, v => [(k, v)]
  | p :: ps, k, v =>
    if p.1 == k then (p.1, v) :: ps
    else p :: jsSetKey ps k v

/-- The (name, range) pairs collected for a project's stub: devDependencies
first, then dependencies, so that on a duplicate name the regular
dependency is assigned last and wins. -/
def tempPairs (rushProject : RushProject) : List (String × String) :=
  optPairs rushProject.devDependencies ++ optPairs rushProject.dependencies

/-- The local-link decision of the pair loop: link iff a workspace project
of that name exists, the name is not in the consuming project's cyclic
exemptions, and the local project's version satisfies the declared range. -/
def willLocalLink (cfg : RushConfigurationModel)
    (satisfies : String → String → Bool) (rushProject : RushProject)
    (p : String × String) : Bool :=
  match getProjectByName cfg p.1 with
  | some localProject =>
    !(rushProject.cyclicDependencyProjects.contains p.1)
      && satisfies localProject.version p.2
  | none => false

/-- Embeds the pair loop: linked pairs go to rushDependencies (created on
first use), all other pairs go to the stub's dependencies. -/
def processTempPairs (cfg : RushConfigurationModel)
    (satisfies : String → String → Bool) (rushProject : RushProject) :
    List (String × String) × Option (List (String × String)) :=
  (tempPairs rushProject).foldl (fun acc p =>
    if willLocalLink cfg satisfies rushProject p then
      (acc.1, some (jsSetKey (acc.2.getD []) p.1 p.2))
    else
      (jsSetKey acc.1 p.1 p.2, acc.2)) ([], none)

/-- Embeds the stub manifest generation for one project:
name/version/private omitted, optionalDependencies copied verbatim,
dependencies and rushDependencies from the pair loop. -/
def createTempPackageJson (cfg : RushConfigurationModel)
    (satisfies : String → String → Bool) (rushProject : RushProject) :
    RushTempPackageJson :=
  { dependencies := (processTempPairs cfg satisfies rushProject).1,
    optionalDependencies := rushProject.optionalDependencies,
    rushDependencies := (processTempPairs cfg satisfies rushProject).2 }

/-- Lookup in the stub's rushDependencies (absent map = empty). -/
def rushDepsLookup (stub : RushTempPackageJson) (k : String) :
    Option String :=
  match stub.rushDependencies with
  | none => none
  | some m => tryGetValue m k

/-- The range of the last occurrence of a key in a pair list (JS object
assignment semantics: the last write wins). -/
def lastRangeFor (l : List (String × String)) (k : String) : Option String :=
  (l.reverse.find? (fun p => p.1 == k)).map (·.2)

theorem tryGetValue_jsSetKey (o : List (String × String)) (k v x : String) :
    tryGetValue (jsSetKey o k v) x
      = if x == k then some v else tryGetValue o x := by
  induction o with
  | nil =>
    by_cases hx : x = k
    · simp [jsSetKey, tryGetValue_cons, tryGetValue, hx]
    · have hkx : ¬ k = x := fun h => hx h.symm
      simp [jsSetKey, tryGetValue_cons, tryGetValue, hx, hkx]
  | cons p ps ih =>
    by_cases hpk : p.1 = k
    · by_cases hpx : p.1 = x
      · have hx : x = k := hpx.symm.trans hpk
        simp [jsSetKey, tryGetValue_cons, hpk, hpx, hx]
      · have hx : ¬ x = k := fun h => hpx ((hpk.trans h.symm))
        have hkx : ¬ k = x := fun h => hx h.symm
        simp [jsSetKey, tryGetValue_cons, hpk, hpx, hx, hkx]
    · by_cases hpx : p.1 = x
      · have hx : ¬ x = k := fun h => hpk (hpx.trans h)
        simp [jsSetKey, tryGetValue_cons, hpk, hpx, hx]
      · simp [jsSetKey, tryGetValue_cons, hpk, hpx, ih]

theorem lastRangeFor_cons (p : String × String) (ps : List (String × String))
    (x : String) :
    lastRangeFor (p :: ps) x
      = match lastRangeFor ps x with
        | some v => some v
        | none => if p.1 == x then some p.2 else none := by
  unfold lastRangeFor
  rw [List.reverse_cons, List.find?_append]
  rcases h : ps.reverse.find? (fun q => q.1 == x) with _ | q
  · rcases h2 : (p.1 == x) with _ | _ <;>
      simp [List.find?_cons, h, h2, Option.or]
  · simp [h, Option.or]

theorem tryGetValue_foldl_jsSetKey (pairs : List (String × String))
    (o : List (String × String)) (x : String) :
    tryGetValue (pairs.foldl (fun o p => jsSetKey o p.1 p.2) o) x
      = match lastRangeFor pairs x with
        | some v => some v
        | none => tryGetValue o x := by
  induction pairs generalizing o with
  | nil => simp [lastRangeFor]
  | cons p ps ih =>
    rw [List.foldl_cons, ih, lastRangeFor_cons, tryGetValue_jsSetKey]
    rcases h : lastRangeFor ps x with _ | v
    · by_cases hpx : p.1 = x
      · simp [hpx]
      · have hx : ¬ x = p.1 := fun h2 => hpx h2.symm
        simp [hpx, hx]
    · simp

theorem processPairs_aux (cfg : RushConfigurationModel)
    (satisfies : String → String → Bool) (rushProject : RushProject)
    (pairs : List (String × String)) (d : List (String × String))
    (rOpt : Option (List (String × String))) :
    pairs.foldl (fun acc p =>
        if willLocalLink cfg satisfies rushProject p then
          (acc.1, some (jsSetKey (acc.2.getD []) p.1 p.2))
        else
          (jsSetKey acc.1 p.1 p.2, acc.2)) (d, rOpt)
      = ((pairs.filter (fun p =>
            !(willLocalLink cfg satisfies rushProject p))).foldl
            (fun o p => jsSetKey o p.1 p.2) d,
         match pairs.filter (fun p => willLocalLink cfg satisfies rushProject p)
            with
         | [] => rOpt
         | l => some (l.foldl (fun o p => jsSetKey o p.1 p.2)
            (rOpt.getD []))) := by
  induction pairs generalizing d rOpt with
  | nil => rfl
  | cons p ps ih =>
    by_cases hl : willLocalLink cfg satisfies rushProject p
    · rw [List.foldl_cons, if_pos hl, ih, List.filter_cons, List.filter_cons]
      have hbl : (willLocalLink cfg satisfies rushProject p) = true := hl
      rw [hbl]
      simp only [Bool.not_true, Bool.false_eq_true, if_false, if_true]
      refine congrArg (Prod.mk _) ?_
      rcases hfl : ps.filter (fun p => willLocalLink cfg satisfies rushProject p)
          with _ | ⟨q, rest⟩
      · simp
      · simp [List.foldl_cons]
    · rw [List.foldl_cons, if_neg hl, ih, List.filter_cons, List.filter_cons]
      have hbl : (willLocalLink cfg satisfies rushProject p) = false := by
        simpa using hl
      rw [hbl]
      simp only [Bool.not_false, Bool.false_eq_true, if_false, if_true]
      rw [List.foldl_cons]

theorem find?_key_of_nodup {α : Type} (l : List (String × α)) (k : String)
    (v : α) (hnd : (keysOf l).Nodup) (hmem : (k, v) ∈ l) :
    l.find? (fun p => p.1 == k) = some (k, v) := by
  induction l with
  | nil => cases hmem
  | cons p ps ih =>
    rw [keysOf_cons, List.nodup_cons] at hnd
    rcases List.mem_cons.mp hmem with h | h
    · rw [← h]
      simp [List.find?_cons]
    · have hne : ¬ p.1 = k := by
        intro hpk
        apply hnd.1
        rw [hpk]
        have : k ∈ (ps.map Prod.fst) := List.mem_map.mpr ⟨(k, v), h, rfl⟩
        exact this
      rw [List.find?_cons]
      have hb : (p.1 == k) = false := by simpa using hne
      rw [hb]
      exact ih hnd.2 h

theorem nodupKeys_filter (c : String × String → Bool)
    (l : List (String × String)) (h : (keysOf l).Nodup) :
    (keysOf (l.filter c)).Nodup :=
  List.Nodup.sublist (List.Sublist.map Prod.fst (List.filter_sublist l)) h

theorem nodupKeys_reverse (l : List (String × String))
    (h : (keysOf l).Nodup) : (keysOf l.reverse).Nodup := by
  unfold keysOf at h ⊢
  rw [List.map_reverse]
  exact List.nodup_reverse.mpr h

theorem lastRangeFor_append (a b : List (String × String)) (k : String) :
    lastRangeFor (a ++ b) k
      = match lastRangeFor b k with
        | some v => some v
        | none => lastRangeFor a k := by
  unfold lastRangeFor
  rw [List.reverse_append, List.find?_append]
  rcases h : b.reverse.find? (fun p => p.1 == k) with _ | q <;>
    simp [h, Option.or]

theorem tryGetValue_foldl_jsSetKey_nil (pairs : List (String × String))
    (k : String) :
    tryGetValue (pairs.foldl (fun o p => jsSetKey o p.1 p.2) []) k
      = lastRangeFor pairs k := by
  rw [tryGetValue_foldl_jsSetKey]
  rcases h : lastRangeFor pairs k with _ | v <;> simp [tryGetValue]

theorem contains_eq_true_iff (l : List String) (a : String) :
    l.contains a = true ↔ a ∈ l := List.elem_iff

/-- C5: the stub generator routes each (name, range) pair of the project's
devDependencies and dependencies to rushDependencies exactly when a
workspace project of that name exists, its version satisfies the range, and
the name is not cyclic-exempt, and to the stub's dependencies otherwise;
devDependencies are merged into the same maps with the regular dependency
winning on a name conflict; optionalDependencies are copied verbatim. -/
theorem stub_manifest_generation (cfg : RushConfigurationModel)
    (satisfies : String → String → Bool) (rushProject : RushProject) :
    (∀ p : String × String,
        willLocalLink cfg satisfies rushProject p = true ↔
          ((∃ localProject, getProjectByName cfg p.1 = some localProject
              ∧ satisfies localProject.version p.2 = true)
            ∧ p.1 ∉ rushProject.cyclicDependencyProjects))
      ∧ (∀ k, tryGetValue
            (createTempPackageJson cfg satisfies rushProject).dependencies k
          = lastRangeFor ((tempPairs rushProject).filter
              (fun p => !(willLocalLink cfg satisfies rushProject p))) k)
      ∧ (∀ k, rushDepsLookup
            (createTempPackageJson cfg satisfies rushProject) k
          = lastRangeFor ((tempPairs rushProject).filter
              (fun p => willLocalLink cfg satisfies rushProject p)) k)
      ∧ ((createTempPackageJson cfg satisfies rushProject).optionalDependencies
          = rushProject.optionalDependencies)
      ∧ (∀ k rr, (keysOf (optPairs rushProject.dependencies)).Nodup →
          (k, rr) ∈ optPairs rushProject.dependencies →
          willLocalLink cfg satisfies rushProject (k, rr) = false →
          tryGetValue
              (createTempPackageJson cfg satisfies rushProject).dependencies k
            = some rr) := by
  have hsplit := processPairs_aux cfg satisfies rushProject
    (tempPairs rushProject) [] none
  have hdeps : (createTempPackageJson cfg satisfies rushProject).dependencies
      = ((tempPairs rushProject).filter (fun p =>
          !(willLocalLink cfg satisfies rushProject p))).foldl
          (fun o p => jsSetKey o p.1 p.2) [] := by
    show (processTempPairs cfg satisfies rushProject).1 = _
    unfold processTempPairs
    rw [hsplit]
  refine ⟨?_, ?_, ?_, rfl, ?_⟩
  · intro p
    unfold willLocalLink
    rcases hq : getProjectByName cfg p.1 with _ | q
    · simp [hq]
    · rw [Bool.and_eq_true]
      have hc := contains_eq_true_iff rushProject.cyclicDependencyProjects p.1
      constructor
      · rintro ⟨hnc, hsat⟩
        rw [Bool.not_eq_true'] at hnc
        refine ⟨⟨q, rfl, hsat⟩, fun hmem => ?_⟩
        rw [← hc] at hmem
        rw [hnc] at hmem
        cases hmem
      · rintro ⟨⟨q2, hq2, hsat⟩, hnm⟩
        cases hq2
        refine ⟨?_, hsat⟩
        rw [Bool.not_eq_true']
        rcases hcc : rushProject.cyclicDependencyProjects.contains p.1 with _ | _
        · rfl
        · exact absurd (hc.mp hcc) hnm
  · intro k
    rw [hdeps, tryGetValue_foldl_jsSetKey_nil]
  · intro k
    have hrush : (createTempPackageJson cfg satisfies rushProject).rushDependencies
        = match (tempPairs rushProject).filter
            (fun p => willLocalLink cfg satisfies rushProject p) with
          | [] => none
          | l => some (l.foldl (fun o p => jsSetKey o p.1 p.2) []) := by
      show (processTempPairs cfg satisfies rushProject).2 = _
      unfold processTempPairs
      rw [hsplit]
      rfl
    unfold rushDepsLookup
    rw [hrush]
    rcases hfl : (tempPairs rushProject).filter
        (fun p => willLocalLink cfg satisfies rushProject p) with _ | ⟨q, rest⟩
    · rfl
    · show tryGetValue ((q :: rest).foldl (fun o p => jsSetKey o p.1 p.2) []) k
        = lastRangeFor (q :: rest) k
      exact tryGetValue_foldl_jsSetKey_nil _ _
  · intro k rr hnd hmem hnl
    rw [hdeps, tryGetValue_foldl_jsSetKey_nil]
    unfold tempPairs
    rw [List.filter_append, lastRangeFor_append]
    have hmemf : (k, rr) ∈ (optPairs rushProject.dependencies).filter
        (fun p => !(willLocalLink cfg satisfies rushProject p)) := by
      rw [List.mem_filter]
      exact ⟨hmem, by simp [hnl]⟩
    have hndf := nodupKeys_reverse _ (nodupKeys_filter
      (fun p => !(willLocalLink cfg satisfies rushProject p))
      (optPairs rushProject.dependencies) hnd)
    have hfind := find?_key_of_nodup _ k rr hndf
      (List.mem_reverse.mpr hmemf)
    unfold lastRangeFor
    rw [hfind]
    rfl

/-- A third project consuming a local project, an external library, a dev
dependency and an optional dependency. -/
def witnessProjectC : RushProject :=
  { packageName := "project-c", version := "1.0.0",
    dependencies := some [("project-a", "^1.0.0"), ("lodash", "~4.0.0")],
    devDependencies := some [("mocha", "^3.0.0")],
    optionalDependencies := some [("fsevents", "^1.0.0")],
    cyclicDependencyProjects := [] }

/-- C5 witness: the external dependency lodash lands in the stub's
dependencies with its declared range. -/
theorem stub_manifest_generation_witness :
    tryGetValue (createTempPackageJson witnessCfg (fun _ r => r == "^1.0.0")
        witnessProjectC).dependencies "lodash" = some "~4.0.0" :=
  (stub_manifest_generation witnessCfg (fun _ r => r == "^1.0.0")
      witnessProjectC).2.2.2.2 "lodash" "~4.0.0" (by decide) (by decide)
    (by decide)
